import Mathlib

/-!
Verification development for the Tellusim BlueNoise generator
(`BlueNoise.cpp` / `BlueNoise.h` / the GLSL compute shader source).

The development shallowly embeds the void-and-cluster synthesis engine:

* the two-stage extremal-pixel search (`MIN_SAMPLE_SHADER` /
  `MAX_SAMPLE_SHADER` tile reduction followed by the `POSITION_SHADER`
  global reduction),
* the phase driver of `BlueNoise::dispatch` (phase 0 tightening,
  phase 1 rank-down on a copy, phase 2 rank-up, phase 3 rank-up on the
  inverted pattern) together with the `UPDATE_SHADER` write-back,
* the spatial energy-kernel construction and its normalization,
* the wrap-around position remap of `UPSCALE_SHADER` / `UPDATE_SHADER`,
* the configuration validation of `BlueNoise::dispatch`.

Floating-point energy values produced by the Fourier-transform filter
chain are abstracted as an oracle `E : Nat → Pos → Int` (one energy field
per greedy step); the shaders only compare energies, so every theorem is
stated for all oracles, with the magnitude bound `|E| < 10^9` mirroring
the fact that real filtered energies never reach the `-1e9` sentinel.
The `exp` function of the kernel construction is likewise abstracted as
an oracle `ef : ℚ → ℚ`.  Pixel positions are pairs of naturals; machine
floats `0.0/1.0` stored in the binary pattern textures are modelled as
`Bool` (the shaders only ever compare them against `0.5`).
-/

namespace BlueNoise

set_option maxRecDepth 100000

/-- Pixel position, `(x, y)`. -/
abbrev Pos : Type := Nat × Nat

/-- A weighted candidate, the `ivec4(position, floatBitsToInt(weight), 0)`
record exchanged through `position_buffer` (the unused fourth lane is
dropped). -/
structure Cand where
  pos : Pos
  weight : Int
deriving DecidableEq, Repr

/-- The reduction step shared by all three reduction loops in the shader:
`if (weights[index] < weight) { weights[index] = weight; positions[index] = ... }`,
i.e. keep the left candidate unless the right one is strictly heavier. -/
def combine (a b : Cand) : Cand :=
  if a.weight < b.weight then b else a

theorem combine_eq_or (a b : Cand) : combine a b = a ∨ combine a b = b := by
  unfold combine; split
  · exact Or.inr rfl
  · exact Or.inl rfl

theorem combine_left_le (a b : Cand) : a.weight ≤ (combine a b).weight := by
  unfold combine; split
  · omega
  · omega

theorem combine_right_le (a b : Cand) : b.weight ≤ (combine a b).weight := by
  unfold combine; split
  · omega
  · omega

theorem combine_assoc (a b c : Cand) :
    combine (combine a b) c = combine a (combine b c) := by
  by_cases hab : a.weight < b.weight
  · by_cases hbc : b.weight < c.weight
    · have hac : a.weight < c.weight := lt_trans hab hbc
      simp [combine, hab, hbc, hac]
    · simp [combine, hab, hbc]
  · by_cases hbc : b.weight < c.weight
    · simp [combine, hab, hbc]
    · have hac : ¬ a.weight < c.weight := by omega
      simp [combine, hab, hbc, hac]

/-- Left-biased running maximum of the candidates `f start, …, f (start+len)`:
the sequential-scan specification every reduction stage is compared against. -/
def scanMax (f : Nat → Cand) (start : Nat) : Nat → Cand
  | 0 => f start
  | n + 1 => combine (scanMax f start n) (f (start + n + 1))

theorem scanMax_split (f : Nat → Cand) (start a : Nat) :
    ∀ b, scanMax f start (a + b + 1) =
      combine (scanMax f start a) (scanMax f (start + a + 1) b) := by
  intro b
  induction b with
  | zero => simp [scanMax]
  | succ n ih =>
      have h1 : a + (n + 1) + 1 = (a + n + 1) + 1 := by omega
      rw [h1]
      show combine (scanMax f start (a + n + 1)) (f (start + (a + n + 1) + 1)) = _
      rw [ih, combine_assoc]
      show _ = combine (scanMax f start a)
        (combine (scanMax f (start + a + 1) n) (f ((start + a + 1) + n + 1)))
      have h2 : start + (a + n + 1) + 1 = (start + a + 1) + n + 1 := by omega
      rw [h2]

theorem scanMax_le (f : Nat → Cand) (start len : Nat) :
    ∀ j, j ≤ len → (f (start + j)).weight ≤ (scanMax f start len).weight := by
  induction len with
  | zero =>
      intro j hj
      interval_cases j
      simp [scanMax]
  | succ n ih =>
      intro j hj
      rcases Nat.lt_or_ge j (n + 1) with h | h
      · exact le_trans (ih j (by omega)) (combine_left_le _ _)
      · have hj' : j = n + 1 := by omega
        subst hj'
        have := combine_right_le (scanMax f start n) (f (start + n + 1))
        simpa [scanMax] using this

theorem scanMax_mem (f : Nat → Cand) (start len : Nat) :
    ∃ j, j ≤ len ∧ scanMax f start len = f (start + j) := by
  induction len with
  | zero => exact ⟨0, le_refl 0, rfl⟩
  | succ n ih =>
      rcases ih with ⟨j, hj, heq⟩
      rcases combine_eq_or (scanMax f start n) (f (start + n + 1)) with h | h
      · refine ⟨j, by omega, ?_⟩
        show combine (scanMax f start n) (f (start + n + 1)) = f (start + j)
        rw [h, heq]
      · refine ⟨n + 1, le_refl _, ?_⟩
        show combine (scanMax f start n) (f (start + n + 1)) = f (start + (n + 1))
        rw [h]
        congr 1

/-- One barrier-separated round of the shared-memory tree reduction:
thread `local_id` works on `index = offset * (local_id << 1)` and merges
`weights[index + offset]` into `weights[index]` when `index + offset < n`
(the loop body of both the sample shaders and `POSITION_SHADER`). -/
def reduceRound (n offset : Nat) (f : Nat → Cand) : Nat → Cand :=
  fun i =>
    if i % (2 * offset) = 0 ∧ i + offset < n then combine (f i) (f (i + offset))
    else f i

/-- The reduction loop `for (offset = 1; offset < n; offset <<= 1)` after
`rounds` iterations, i.e. rounds with offsets `2^0, …, 2^(rounds-1)`. -/
def treeReduce (n : Nat) (f : Nat → Cand) : Nat → Nat → Cand
  | 0 => f
  | r + 1 => reduceRound n (2 ^ r) (treeReduce n f r)

theorem treeReduce_block (k : Nat) (f : Nat → Cand) :
    ∀ r, r ≤ k → ∀ i, i % 2 ^ r = 0 → i + 2 ^ r ≤ 2 ^ k →
      treeReduce (2 ^ k) f r i = scanMax f i (2 ^ r - 1) := by
  intro r
  induction r with
  | zero => intro _ i _ _; simp [treeReduce, scanMax]
  | succ r ih =>
      intro hr i hmod hle
      have hpow : (0 : Nat) < 2 ^ r := Nat.pos_pow_of_pos r (by omega)
      have hsucc : 2 ^ (r + 1) = 2 * 2 ^ r := by rw [Nat.pow_succ]; ring
      have hdvd : 2 ^ r ∣ i := by
        have h := Nat.dvd_of_mod_eq_zero hmod
        exact dvd_trans (pow_dvd_pow 2 (Nat.le_succ r)) h
      show reduceRound (2 ^ k) (2 ^ r) (treeReduce (2 ^ k) f r) i = _
      unfold reduceRound
      have hcond : i % (2 * 2 ^ r) = 0 ∧ i + 2 ^ r < 2 ^ k := by
        constructor
        · rw [← hsucc]; exact hmod
        · omega
      rw [if_pos hcond]
      have h1 : treeReduce (2 ^ k) f r i = scanMax f i (2 ^ r - 1) :=
        ih (by omega) i (Nat.mod_eq_zero_of_dvd hdvd) (by omega)
      have h2 : treeReduce (2 ^ k) f r (i + 2 ^ r) = scanMax f (i + 2 ^ r) (2 ^ r - 1) := by
        refine ih (by omega) (i + 2 ^ r) ?_ (by omega)
        have hd : 2 ^ r ∣ i + 2 ^ r := Dvd.dvd.add hdvd dvd_rfl
        exact Nat.mod_eq_zero_of_dvd hd
      rw [h1, h2]
      have hsplit := scanMax_split f i (2 ^ r - 1) (2 ^ r - 1)
      have harith : 2 ^ r - 1 + (2 ^ r - 1) + 1 = 2 ^ (r + 1) - 1 := by
        rw [hsucc]; omega
      have hstart : i + (2 ^ r - 1) + 1 = i + 2 ^ r := by omega
      rw [harith, hstart] at hsplit
      rw [hsplit]

theorem treeReduce_eq_scanMax (k : Nat) (f : Nat → Cand) :
    treeReduce (2 ^ k) f k 0 = scanMax f 0 (2 ^ k - 1) := by
  have hpow : (0 : Nat) < 2 ^ k := Nat.pos_pow_of_pos k (by omega)
  exact treeReduce_block k f k (le_refl k) 0 (by simp) (by omega)

/-- The finite `-1e9f` sentinel weight assigned to ineligible pixels
(and used to initialise the `POSITION_SHADER` lanes). -/
def sentinel : Int := -(10 ^ 9)

/-- Which of the two sample-shader variants is compiled
(`MIN_SAMPLE_SHADER` or `MAX_SAMPLE_SHADER`). -/
inductive SampleMode
  | minSample
  | maxSample
deriving DecidableEq

/-- Per-pixel signed weight of the sample shaders.  `value` is the binary
pattern texel (the shader compares the float against `0.5`), `energy` the
filtered energy texel:
`MIN_SAMPLE_SHADER`: `if (value > 0.5) weight = -1e9; else weight = -weight;`
`MAX_SAMPLE_SHADER`: `if (value < 0.5) weight = -1e9;` (else keep `+weight`). -/
def sampleWeight (mode : SampleMode) (value : Bool) (energy : Int) : Int :=
  match mode with
  | .minSample => if value then sentinel else -energy
  | .maxSample => if value then energy else sentinel

/-- Weight of pixel `p` for pattern `pat` and energy field `energy`. -/
def pixWeight (mode : SampleMode) (pat : Pos → Bool) (energy : Pos → Int)
    (p : Pos) : Int :=
  sampleWeight mode (pat p) (energy p)

/-- Initial shared-memory contents of the 16×16 sample-shader workgroup
`(gx, gy)`: thread `lid = gl_LocalInvocationIndex` holds the weight and
global position of pixel `(16*gx + lid % 16, 16*gy + lid / 16)`. -/
def tileInit (mode : SampleMode) (pat : Pos → Bool) (energy : Pos → Int)
    (gx gy : Nat) : Nat → Cand :=
  fun lid =>
    let p : Pos := (16 * gx + lid % 16, 16 * gy + lid / 16)
    ⟨p, pixWeight mode pat energy p⟩

/-- Tile-local winner: the candidate tile `(gx, gy)` writes into
`position_buffer[num_groups * gy + gx]` after its 8-round tree reduction
over `GROUP_SIZE * GROUP_SIZE = 256` lanes. -/
def tileCand (mode : SampleMode) (pat : Pos → Bool) (energy : Pos → Int)
    (gx gy : Nat) : Cand :=
  treeReduce 256 (tileInit mode pat energy gx gy) 8 0

/-- Contents of `position_buffer[idx]` after the sample pass, for a grid of
`tw × th` tiles (`num_groups = tw`, so `idx = tw * gy + gx`). -/
def candAt (mode : SampleMode) (pat : Pos → Bool) (energy : Pos → Int)
    (tw : Nat) (idx : Nat) : Cand :=
  tileCand mode pat energy (idx % tw) (idx / tw)

/-- Body of the `POSITION_SHADER` sampling loop: at step `i` lane `lane`
reads `position_buffer[256 * i + lane]` when that index is below
`num_positions` and keeps it if strictly heavier. -/
def laneStep (cand : Nat → Cand) (num lane : Nat) (acc : Cand) (i : Nat) : Cand :=
  if 256 * i + lane < num then combine acc (cand (256 * i + lane)) else acc

/-- Per-lane sequential accumulation of `POSITION_SHADER`: lane `lane`
starts from weight `-1e9` at position `(0,0)` and folds the candidates at
indices `lane, 256+lane, 512+lane, …` below `num` over
`UDIV(num_positions, GROUP_SIZE)` steps, keeping the first
strictly-greater weight. -/
def laneAcc (cand : Nat → Cand) (num lane : Nat) : Cand :=
  (List.range ((num + 255) / 256)).foldl (laneStep cand num lane) ⟨(0, 0), sentinel⟩

/-- Result of the whole two-stage extremal search
(`MIN_SAMPLE_SHADER`/`MAX_SAMPLE_SHADER` over every 16×16 tile of the
`16*tw × 16*th` image, then `POSITION_SHADER`'s lane accumulation and
8-round tree reduction over its 256 lanes): the final
`position_buffer[0]` record. -/
def searchResult (tw th : Nat) (pat : Pos → Bool) (energy : Pos → Int)
    (mode : SampleMode) : Cand :=
  treeReduce 256 (laneAcc (candAt mode pat energy tw) (tw * th)) 8 0

theorem laneFold_acc_le (cand : Nat → Cand) (num lane : Nat) :
    ∀ (l : List Nat) (acc : Cand),
      acc.weight ≤ (l.foldl (laneStep cand num lane) acc).weight := by
  intro l
  induction l with
  | nil => intro acc; exact le_refl _
  | cons x xs ih =>
      intro acc
      refine le_trans ?_ (ih (laneStep cand num lane acc x))
      unfold laneStep
      split
      · exact combine_left_le _ _
      · exact le_refl _

theorem laneFold_le (cand : Nat → Cand) (num lane : Nat) :
    ∀ (l : List Nat) (acc : Cand) (i : Nat), i ∈ l → 256 * i + lane < num →
      (cand (256 * i + lane)).weight ≤
        (l.foldl (laneStep cand num lane) acc).weight := by
  intro l
  induction l with
  | nil => intro _ i h; cases h
  | cons x xs ih =>
      intro acc i hmem hlt
      rcases List.mem_cons.mp hmem with h | h
      · subst h
        refine le_trans ?_ (laneFold_acc_le cand num lane xs _)
        unfold laneStep
        rw [if_pos hlt]
        exact combine_right_le _ _
      · exact ih _ i h hlt

theorem laneFold_mem (cand : Nat → Cand) (num lane : Nat) :
    ∀ (l : List Nat) (acc : Cand),
      (l.foldl (laneStep cand num lane) acc) = acc ∨
      ∃ i ∈ l, 256 * i + lane < num ∧
        (l.foldl (laneStep cand num lane) acc) = cand (256 * i + lane) := by
  intro l
  induction l with
  | nil => intro acc; exact Or.inl rfl
  | cons x xs ih =>
      intro acc
      have hfold : (x :: xs).foldl (laneStep cand num lane) acc
          = xs.foldl (laneStep cand num lane) (laneStep cand num lane acc x) := rfl
      rw [hfold]
      rcases ih (laneStep cand num lane acc x) with h | ⟨i, hi, hlt, heq⟩
      · rw [h]
        unfold laneStep
        split_ifs with hc
        · rcases combine_eq_or acc (cand (256 * x + lane)) with h2 | h2
          · exact Or.inl h2
          · exact Or.inr ⟨x, List.mem_cons_self x xs, hc, h2⟩
        · exact Or.inl rfl
      · exact Or.inr ⟨i, List.mem_cons_of_mem x hi, hlt, heq⟩

theorem laneAcc_sentinel_le (cand : Nat → Cand) (num lane : Nat) :
    sentinel ≤ (laneAcc cand num lane).weight :=
  laneFold_acc_le cand num lane _ _

theorem laneAcc_le (cand : Nat → Cand) (num lane idx : Nat)
    (h1 : idx < num) (h2 : idx % 256 = lane) :
    (cand idx).weight ≤ (laneAcc cand num lane).weight := by
  have hidx : 256 * (idx / 256) + lane = idx := by omega
  have hmem : idx / 256 ∈ List.range ((num + 255) / 256) := by
    rw [List.mem_range]; omega
  have := laneFold_le cand num lane (List.range ((num + 255) / 256))
    ⟨(0, 0), sentinel⟩ (idx / 256) hmem (by omega)
  rw [hidx] at this
  exact this

theorem laneAcc_cases (cand : Nat → Cand) (num lane : Nat) (hlane : lane < 256) :
    laneAcc cand num lane = ⟨(0, 0), sentinel⟩ ∨
    ∃ idx, idx < num ∧ idx % 256 = lane ∧ laneAcc cand num lane = cand idx := by
  rcases laneFold_mem cand num lane (List.range ((num + 255) / 256))
    ⟨(0, 0), sentinel⟩ with h | ⟨i, _, hlt, heq⟩
  · exact Or.inl h
  · exact Or.inr ⟨256 * i + lane, hlt, by omega, heq⟩

theorem searchResult_eq_scanMax (tw th : Nat) (pat : Pos → Bool)
    (energy : Pos → Int) (mode : SampleMode) :
    searchResult tw th pat energy mode =
      scanMax (laneAcc (candAt mode pat energy tw) (tw * th)) 0 255 := by
  unfold searchResult
  have h256 : (256 : Nat) = 2 ^ 8 := by norm_num
  rw [h256, treeReduce_eq_scanMax]
  norm_num

theorem tileCand_eq_scanMax (mode : SampleMode) (pat : Pos → Bool)
    (energy : Pos → Int) (gx gy : Nat) :
    tileCand mode pat energy gx gy =
      scanMax (tileInit mode pat energy gx gy) 0 255 := by
  unfold tileCand
  have h256 : (256 : Nat) = 2 ^ 8 := by norm_num
  rw [h256, treeReduce_eq_scanMax]
  norm_num

theorem tileInit_at (mode : SampleMode) (pat : Pos → Bool) (energy : Pos → Int)
    (x y : Nat) :
    tileInit mode pat energy (x / 16) (y / 16) ((y % 16) * 16 + x % 16) =
      ⟨(x, y), pixWeight mode pat energy (x, y)⟩ := by
  unfold tileInit
  have hx : 16 * (x / 16) + ((y % 16) * 16 + x % 16) % 16 = x := by omega
  have hy : 16 * (y / 16) + ((y % 16) * 16 + x % 16) / 16 = y := by omega
  simp only [hx, hy]

theorem tileCand_ge (mode : SampleMode) (pat : Pos → Bool) (energy : Pos → Int)
    (x y : Nat) :
    pixWeight mode pat energy (x, y) ≤
      (tileCand mode pat energy (x / 16) (y / 16)).weight := by
  rw [tileCand_eq_scanMax]
  have hlid : (y % 16) * 16 + x % 16 ≤ 255 := by omega
  have h := scanMax_le (tileInit mode pat energy (x / 16) (y / 16)) 0 255
    ((y % 16) * 16 + x % 16) hlid
  rw [Nat.zero_add, tileInit_at] at h
  exact h

theorem tileCand_mem (mode : SampleMode) (pat : Pos → Bool) (energy : Pos → Int)
    (gx gy : Nat) :
    ∃ x y, x < 16 * gx + 16 ∧ 16 * gx ≤ x ∧ y < 16 * gy + 16 ∧ 16 * gy ≤ y ∧
      tileCand mode pat energy gx gy = ⟨(x, y), pixWeight mode pat energy (x, y)⟩ := by
  rw [tileCand_eq_scanMax]
  rcases scanMax_mem (tileInit mode pat energy gx gy) 0 255 with ⟨lid, hlid, heq⟩
  rw [Nat.zero_add] at heq
  refine ⟨16 * gx + lid % 16, 16 * gy + lid / 16, by omega, by omega, by omega, by omega, ?_⟩
  rw [heq]
  rfl

theorem candAt_eq (mode : SampleMode) (pat : Pos → Bool) (energy : Pos → Int)
    (tw gx gy : Nat) (hgx : gx < tw) :
    candAt mode pat energy tw (tw * gy + gx) = tileCand mode pat energy gx gy := by
  unfold candAt
  have h1 : (tw * gy + gx) % tw = gx := by
    rw [Nat.mul_add_mod]
    exact Nat.mod_eq_of_lt hgx
  have h2 : (tw * gy + gx) / tw = gy := by
    rw [Nat.mul_add_div (by omega), Nat.div_eq_of_lt hgx]
    omega
  rw [h1, h2]

theorem search_ge_lane (tw th : Nat) (pat : Pos → Bool) (energy : Pos → Int)
    (mode : SampleMode) (lane : Nat) (hlane : lane < 256) :
    (laneAcc (candAt mode pat energy tw) (tw * th) lane).weight ≤
      (searchResult tw th pat energy mode).weight := by
  rw [searchResult_eq_scanMax]
  have h := scanMax_le (laneAcc (candAt mode pat energy tw) (tw * th)) 0 255
    lane (by omega)
  rw [Nat.zero_add] at h
  exact h

theorem search_sentinel_le (tw th : Nat) (pat : Pos → Bool) (energy : Pos → Int)
    (mode : SampleMode) :
    sentinel ≤ (searchResult tw th pat energy mode).weight :=
  le_trans (laneAcc_sentinel_le _ _ 0) (search_ge_lane tw th pat energy mode 0 (by omega))

theorem search_ge_pixel (tw th : Nat) (pat : Pos → Bool) (energy : Pos → Int)
    (mode : SampleMode) (x y : Nat) (hx : x < 16 * tw) (hy : y < 16 * th) :
    pixWeight mode pat energy (x, y) ≤
      (searchResult tw th pat energy mode).weight := by
  have htw : 0 < tw := by omega
  have hgx : x / 16 < tw := by omega
  have hgy : y / 16 < th := by omega
  have hidx : tw * (y / 16) + x / 16 < tw * th := by
    calc tw * (y / 16) + x / 16 < tw * (y / 16) + tw := by omega
    _ = tw * (y / 16 + 1) := by ring
    _ ≤ tw * th := Nat.mul_le_mul_left tw (by omega)
  refine le_trans (tileCand_ge mode pat energy x y) ?_
  rw [← candAt_eq mode pat energy tw (x / 16) (y / 16) hgx]
  refine le_trans (laneAcc_le (candAt mode pat energy tw) (tw * th)
    ((tw * (y / 16) + x / 16) % 256) (tw * (y / 16) + x / 16) hidx rfl) ?_
  exact search_ge_lane tw th pat energy mode _ (Nat.mod_lt _ (by omega))

theorem search_attains (tw th : Nat) (pat : Pos → Bool) (energy : Pos → Int)
    (mode : SampleMode) (htw : 0 < tw) :
    searchResult tw th pat energy mode = ⟨(0, 0), sentinel⟩ ∨
    ∃ x y, x < 16 * tw ∧ y < 16 * th ∧
      searchResult tw th pat energy mode =
        ⟨(x, y), pixWeight mode pat energy (x, y)⟩ := by
  rw [searchResult_eq_scanMax]
  rcases scanMax_mem (laneAcc (candAt mode pat energy tw) (tw * th)) 0 255
    with ⟨lane, hlane, heq⟩
  rw [Nat.zero_add] at heq
  rw [heq]
  rcases laneAcc_cases (candAt mode pat energy tw) (tw * th) lane (by omega)
    with h | ⟨idx, hidx, _, h⟩
  · exact Or.inl h
  · rw [h]
    have hgx : idx % tw < tw := Nat.mod_lt _ htw
    have hgy : idx / tw < th := by
      rcases Nat.lt_or_ge (idx / tw) th with hlt | hge
      · exact hlt
      · exfalso
        have : tw * th ≤ tw * (idx / tw) := Nat.mul_le_mul_left tw hge
        have h2 : tw * (idx / tw) ≤ idx := Nat.mul_div_le idx tw
        omega
    have hsplit : tw * (idx / tw) + idx % tw = idx := Nat.div_add_mod idx tw
    rw [← hsplit, candAt_eq mode pat energy tw (idx % tw) (idx / tw) hgx]
    rcases tileCand_mem mode pat energy (idx % tw) (idx / tw)
      with ⟨x, y, hx1, _, hy1, _, hc⟩
    refine Or.inr ⟨x, y, ?_, ?_, hc⟩
    · calc x < 16 * (idx % tw) + 16 := hx1
      _ = 16 * (idx % tw + 1) := by ring
      _ ≤ 16 * tw := Nat.mul_le_mul_left 16 (by omega)
    · calc y < 16 * (idx / tw) + 16 := hy1
      _ = 16 * (idx / tw + 1) := by ring
      _ ≤ 16 * th := Nat.mul_le_mul_left 16 (by omega)

/-- Eligibility of a pixel under the active search policy: `MIN_SAMPLE`
(void filling) inspects pixels whose pattern value is off, `MAX_SAMPLE`
(cluster tightening) those whose pattern value is on. -/
def eligible (mode : SampleMode) (value : Bool) : Bool :=
  match mode with
  | .minSample => !value
  | .maxSample => value

/-- The metric an eligible pixel competes with: `-energy` for `MIN_SAMPLE`,
`+energy` for `MAX_SAMPLE`. -/
def eligWeight (mode : SampleMode) (energy : Int) : Int :=
  match mode with
  | .minSample => -energy
  | .maxSample => energy

theorem sampleWeight_eq (mode : SampleMode) (value : Bool) (energy : Int) :
    sampleWeight mode value energy =
      if eligible mode value then eligWeight mode energy else sentinel := by
  cases mode <;> cases value <;> rfl

/-- Combined specification of the two-stage search: under weights that never
drop below the sentinel, the returned candidate lies in the image, carries
its own pixel weight, and dominates every pixel weight. -/
theorem search_spec (tw th : Nat) (pat : Pos → Bool) (energy : Pos → Int)
    (mode : SampleMode) (htw : 0 < tw) (hth : 0 < th)
    (hbound : ∀ x y, x < 16 * tw → y < 16 * th →
      sentinel ≤ pixWeight mode pat energy (x, y)) :
    (searchResult tw th pat energy mode).pos.1 < 16 * tw ∧
    (searchResult tw th pat energy mode).pos.2 < 16 * th ∧
    pixWeight mode pat energy (searchResult tw th pat energy mode).pos =
      (searchResult tw th pat energy mode).weight ∧
    (∀ x y, x < 16 * tw → y < 16 * th →
      pixWeight mode pat energy (x, y) ≤
        (searchResult tw th pat energy mode).weight) := by
  rcases search_attains tw th pat energy mode htw with h | ⟨x, y, hx, hy, h⟩
  · have h00 : pixWeight mode pat energy (0, 0) ≤
        (searchResult tw th pat energy mode).weight :=
      search_ge_pixel tw th pat energy mode 0 0 (by omega) (by omega)
    have hs := hbound 0 0 (by omega) (by omega)
    rw [h] at h00 ⊢
    have h00' : pixWeight mode pat energy (0, 0) ≤ sentinel := h00
    refine ⟨by simpa using htw, by simpa using hth, ?_, ?_⟩
    · show pixWeight mode pat energy (0, 0) = sentinel
      omega
    · intro x y hx hy
      have := search_ge_pixel tw th pat energy mode x y hx hy
      rw [h] at this
      exact this
  · rw [h]
    exact ⟨hx, hy, rfl, fun x' y' hx' hy' => by
      have := search_ge_pixel tw th pat energy mode x' y' hx' hy'
      rw [h] at this
      exact this⟩

/-- Specification of the search in terms of the policy: with bounded
energies and at least one eligible pixel, the winner is an eligible pixel
maximising the policy metric; ineligible pixels (whose weight is forced to
the sentinel) are never selected. -/
theorem search_eligible (tw th : Nat) (pat : Pos → Bool) (energy : Pos → Int)
    (mode : SampleMode) (htw : 0 < tw) (hth : 0 < th)
    (hE : ∀ x y, x < 16 * tw → y < 16 * th →
      -(10 ^ 9) < energy (x, y) ∧ energy (x, y) < 10 ^ 9)
    (hex : ∃ x y, x < 16 * tw ∧ y < 16 * th ∧ eligible mode (pat (x, y)) = true) :
    (searchResult tw th pat energy mode).pos.1 < 16 * tw ∧
    (searchResult tw th pat energy mode).pos.2 < 16 * th ∧
    eligible mode (pat (searchResult tw th pat energy mode).pos) = true ∧
    (searchResult tw th pat energy mode).weight =
      eligWeight mode (energy (searchResult tw th pat energy mode).pos) ∧
    (∀ x y, x < 16 * tw → y < 16 * th → eligible mode (pat (x, y)) = true →
      eligWeight mode (energy (x, y)) ≤
        (searchResult tw th pat energy mode).weight) := by
  have helig : ∀ x y, x < 16 * tw → y < 16 * th →
      eligible mode (pat (x, y)) = true →
      pixWeight mode pat energy (x, y) = eligWeight mode (energy (x, y)) := by
    intro x y hx hy he
    unfold pixWeight
    rw [sampleWeight_eq, he, if_pos rfl]
  have hstrict : ∀ x y, x < 16 * tw → y < 16 * th →
      eligible mode (pat (x, y)) = true →
      sentinel < pixWeight mode pat energy (x, y) := by
    intro x y hx hy he
    rw [helig x y hx hy he]
    have := hE x y hx hy
    cases mode <;> simp [eligWeight, sentinel] <;> omega
  have hbound : ∀ x y, x < 16 * tw → y < 16 * th →
      sentinel ≤ pixWeight mode pat energy (x, y) := by
    intro x y hx hy
    by_cases he : eligible mode (pat (x, y)) = true
    · exact le_of_lt (hstrict x y hx hy he)
    · unfold pixWeight
      rw [sampleWeight_eq, if_neg he]
  obtain ⟨h1, h2, h3, h4⟩ := search_spec tw th pat energy mode htw hth hbound
  obtain ⟨xe, ye, hxe, hye, he⟩ := hex
  have hgt : sentinel < (searchResult tw th pat energy mode).weight :=
    lt_of_lt_of_le (hstrict xe ye hxe hye he) (h4 xe ye hxe hye)
  have helig0 : eligible mode (pat (searchResult tw th pat energy mode).pos) = true := by
    by_contra hne
    have : pixWeight mode pat energy (searchResult tw th pat energy mode).pos
        = sentinel := by
      unfold pixWeight
      rw [sampleWeight_eq, if_neg hne]
    rw [this] at h3
    omega
  refine ⟨h1, h2, helig0, ?_, ?_⟩
  · have h5 := h3
    unfold pixWeight at h5
    rw [sampleWeight_eq, helig0, if_pos rfl] at h5
    exact h5.symm
  · intro x y hx hy he'
    rw [← helig x y hx hy he']
    exact h4 x y hx hy

/-- One axis of the wrap-around position remap of `UPSCALE_SHADER`
(`big = surface_size`, the padded output being written; `small =
texture_size`, the logical input being read):
`offset = (surface_size - texture_size) / 2;`
`if (position < offset) position += texture_size;`
`position = (position - offset) % texture_size;`
GLSL `%` on integers is modelled by truncated division (`Int.tmod`). -/
def upscaleRemapAxis (big small : Nat) (p : Int) : Int :=
  let offset : Int := ((big - small) / 2 : Nat)
  let p1 : Int := if p < offset then p + small else p
  (p1 - offset).tmod small

/-- One axis of the winning-position remap of `UPDATE_SHADER`
(`big = texture_size`, the padded search space the winner came from;
`small = surface_size`, the logical noise texture being written):
`offset = (texture_size - surface_size) / 2;`
`if (position < offset) position += surface_size;`
`position = (position - offset) % surface_size;`. -/
def updateRemapAxis (big small : Nat) (p : Int) : Int :=
  let offset : Int := ((big - small) / 2 : Nat)
  let p1 : Int := if p < offset then p + small else p
  (p1 - offset).tmod small

theorem updateRemapAxis_self (n p : Nat) (hp : p < n) :
    updateRemapAxis n n p = p := by
  unfold updateRemapAxis
  have h0 : ((n - n) / 2 : Nat) = 0 := by omega
  rw [h0]
  simp only [Nat.cast_zero]
  have hnot : ¬ ((p : Int) < 0) := by omega
  rw [if_neg hnot]
  rw [Int.sub_zero]
  rw [Int.tmod_eq_of_lt (by omega) (by omega)]

/-- Driver-side state of one greedy step target: the step counter (used to
index the per-step abstract energy field), the binary pattern stored in the
texture the step mutates, and the contents of `sequence_buffer`
(`none` = slot never written). -/
structure GState where
  stepc : Nat
  pat : Pos → Bool
  seq : Nat → Option Pos

/-- One `dispatch_kernel` call on a `16*tw × 16*th` working texture whose
logical and padded sizes coincide: run the two-stage search for `mode` over
the current pattern and the step's energy field, remap the winning position
(`UPDATE_SHADER`), store `value` there unconditionally, and record the
position in `sequence_buffer[index]` unless `index == ~0u`. -/
def gStep (tw th : Nat) (E : Nat → Pos → Int) (mode : SampleMode)
    (value : Bool) (idx : Option Nat) (s : GState) : GState :=
  let r := searchResult tw th s.pat (E s.stepc) mode
  let win : Pos := ((updateRemapAxis (16 * tw) (16 * tw) r.pos.1).toNat,
                    (updateRemapAxis (16 * th) (16 * th) r.pos.2).toNat)
  { stepc := s.stepc + 1
    pat := Function.update s.pat win value
    seq := match idx with
           | some i => Function.update s.seq i (some win)
           | none => s.seq }

/-- A run of consecutive `dispatch_kernel` calls sharing one sample kernel
and one written value, with per-call sequence indices `idxs` (the batching
into `BatchSize` command groups only amortises submission overhead and does
not change this fold). -/
def gLoop (tw th : Nat) (E : Nat → Pos → Int) (mode : SampleMode)
    (value : Bool) (idxs : List (Option Nat)) (s : GState) : GState :=
  idxs.foldl (fun s i => gStep tw th E mode value i s) s

/-- State of `BlueNoise::dispatch` between kernel batches: the patterns in
`noise_texture` and `copy_texture`, the `sequence_buffer`, and the number
of `dispatch_kernel` calls issued so far. -/
structure DriverState where
  noise : Pos → Bool
  copy : Pos → Bool
  seq : Nat → Option Pos
  stepc : Nat

/-- One phase-0 swap pair (`create initial sequence` loop body) in the
order the code dispatches it: `min_sample_kernel` with value `1.0` first,
then `max_sample_kernel` with value `0.0`, both with index `Maxu32`
(no rank recorded). -/
def phase0Pair (tw th : Nat) (E : Nat → Pos → Int) (s : GState) : GState :=
  gStep tw th E .maxSample false none (gStep tw th E .minSample true none s)

/-- The phase-0 loop body on the working state: `num_positions` iterations
of `phase0Pair`. -/
def phase0G (tw th : Nat) (E : Nat → Pos → Int) (P : Nat) (s : GState) : GState :=
  (List.range P).foldl (fun s _ => phase0Pair tw th E s) s

def phase0 (tw th : Nat) (E : Nat → Pos → Int) (P : Nat)
    (st : DriverState) : DriverState :=
  let g := phase0G tw th E P ⟨st.stepc, st.noise, st.seq⟩
  ⟨g.pat, st.copy, g.seq, g.stepc⟩

/-- Phase 1 (`first phase`): `copy_texture` is overwritten with
`noise_texture`, then `num_positions` dispatches of `max_sample_kernel`
with value `0.0` and descending indices `num_positions - i - 1` mutate the
copy. -/
def layerPhase1 (tw th : Nat) (E : Nat → Pos → Int) (P : Nat)
    (st : DriverState) : DriverState :=
  let g := gLoop tw th E .maxSample false (((List.range P).reverse).map some)
    ⟨st.stepc, st.noise, st.seq⟩
  ⟨st.noise, g.pat, g.seq, g.stepc⟩

/-- Phase 2 (`second phase`): dispatches of `min_sample_kernel` with value
`1.0` and ascending indices `num_positions … half_pixels - 1` mutate
`noise_texture`. -/
def layerPhase2 (tw th : Nat) (E : Nat → Pos → Int) (P half : Nat)
    (st : DriverState) : DriverState :=
  let g := gLoop tw th E .minSample true ((List.range' P (half - P)).map some)
    ⟨st.stepc, st.noise, st.seq⟩
  ⟨g.pat, st.copy, g.seq, g.stepc⟩

/-- Phase 3 (`third phase`): `copy_texture` is overwritten with the
inverted `noise_texture` (`INVERSE_SHADER`: `1.0 - value`), then dispatches
of `max_sample_kernel` with value `0.0` and ascending indices
`half_pixels … num_pixels - 1` mutate the copy. -/
def layerPhase3 (tw th : Nat) (E : Nat → Pos → Int) (half numPixels : Nat)
    (st : DriverState) : DriverState :=
  let g := gLoop tw th E .maxSample false
    ((List.range' half (numPixels - half)).map some)
    ⟨st.stepc, fun p => !st.noise p, st.seq⟩
  ⟨st.noise, g.pat, g.seq, g.stepc⟩

/-- The per-layer phase sequence of `BlueNoise::dispatch` for an image of
`16*tw × 16*th` pixels with `P = num_positions`. -/
def layerRun (tw th : Nat) (E : Nat → Pos → Int) (P : Nat)
    (st : DriverState) : DriverState :=
  layerPhase3 tw th E (256 * (tw * th) / 2) (256 * (tw * th))
    (layerPhase2 tw th E P (256 * (tw * th) / 2)
      (layerPhase1 tw th E P st))

/-- The pixel domain of a `16*tw × 16*th` image. -/
def domD (tw th : Nat) : Finset Pos :=
  Finset.range (16 * tw) ×ˢ Finset.range (16 * th)

/-- On-pixels of a pattern inside the image domain. -/
def onSet (tw th : Nat) (pat : Pos → Bool) : Finset Pos :=
  (domD tw th).filter (fun p => pat p = true)

/-- Number of on-pixels (the quantity `num_positions` counts on the seed). -/
def onCount (tw th : Nat) (pat : Pos → Bool) : Nat :=
  (onSet tw th pat).card

theorem mem_domD (tw th : Nat) (p : Pos) :
    p ∈ domD tw th ↔ p.1 < 16 * tw ∧ p.2 < 16 * th := by
  simp [domD, Finset.mem_product]

theorem card_domD (tw th : Nat) : (domD tw th).card = 256 * (tw * th) := by
  simp [domD]
  ring

theorem mem_onSet (tw th : Nat) (pat : Pos → Bool) (p : Pos) :
    p ∈ onSet tw th pat ↔ p ∈ domD tw th ∧ pat p = true := by
  simp [onSet, Finset.mem_filter]

theorem onSet_update_false (tw th : Nat) (pat : Pos → Bool) (q : Pos) :
    onSet tw th (Function.update pat q false) = (onSet tw th pat).erase q := by
  ext p
  rw [Finset.mem_erase, mem_onSet, mem_onSet, Function.update_apply]
  by_cases hpq : p = q
  · subst hpq; simp
  · simp [hpq]

theorem onSet_update_true (tw th : Nat) (pat : Pos → Bool) (q : Pos)
    (hq : q ∈ domD tw th) :
    onSet tw th (Function.update pat q true) = insert q (onSet tw th pat) := by
  ext p
  rw [Finset.mem_insert, mem_onSet, mem_onSet, Function.update_apply]
  by_cases hpq : p = q
  · subst hpq; simp [hq]
  · simp [hpq]

/-- Energies the filter chain can actually produce: strictly inside the
`±1e9` sentinel band, so an eligible pixel always beats the sentinel. -/
def EBounded (tw th : Nat) (E : Nat → Pos → Int) : Prop :=
  ∀ n x y, x < 16 * tw → y < 16 * th →
    -(10 ^ 9) < E n (x, y) ∧ E n (x, y) < 10 ^ 9

theorem gStep_char (tw th : Nat) (E : Nat → Pos → Int) (mode : SampleMode)
    (value : Bool) (idx : Option Nat) (s : GState) (htw : 0 < tw) (hth : 0 < th)
    (hE : EBounded tw th E)
    (hex : ∃ p ∈ domD tw th, eligible mode (s.pat p) = true) :
    ∃ q, q ∈ domD tw th ∧ eligible mode (s.pat q) = true ∧
      (gStep tw th E mode value idx s).pat = Function.update s.pat q value ∧
      (gStep tw th E mode value idx s).seq =
        (match idx with
         | some i => Function.update s.seq i (some q)
         | none => s.seq) ∧
      (gStep tw th E mode value idx s).stepc = s.stepc + 1 := by
  obtain ⟨p, hpD, hpe⟩ := hex
  have hp12 := (mem_domD tw th p).mp hpD
  obtain ⟨h1, h2, h3, _, _⟩ := search_eligible tw th s.pat (E s.stepc) mode htw hth
    (fun x y hx hy => hE s.stepc x y hx hy)
    ⟨p.1, p.2, hp12.1, hp12.2, by rw [Prod.mk.eta]; exact hpe⟩
  have hwin : (((updateRemapAxis (16 * tw) (16 * tw)
        ((searchResult tw th s.pat (E s.stepc) mode).pos.1 : Nat)).toNat,
       (updateRemapAxis (16 * th) (16 * th)
        ((searchResult tw th s.pat (E s.stepc) mode).pos.2 : Nat)).toNat) : Pos)
      = (searchResult tw th s.pat (E s.stepc) mode).pos := by
    rw [updateRemapAxis_self _ _ h1, updateRemapAxis_self _ _ h2]
    simp
  refine ⟨(searchResult tw th s.pat (E s.stepc) mode).pos,
    (mem_domD _ _ _).mpr ⟨h1, h2⟩, h3, ?_, ?_, rfl⟩
  · show Function.update s.pat _ value = _
    rw [hwin]
  · cases idx with
    | none => rfl
    | some i =>
        show Function.update s.seq i (some _) = Function.update s.seq i (some _)
        rw [hwin]

/-- Specification of a removal loop (`max_sample_kernel`, value `0.0`), the
shape of phases 1 and 3: a `Nodup` index list whose length equals the
current on-pixel count empties the pattern and records a bijection between
the indices and the initial on-pixels. -/
theorem gLoop_remove (tw th : Nat) (E : Nat → Pos → Int)
    (htw : 0 < tw) (hth : 0 < th) (hE : EBounded tw th E) :
    ∀ (idxs : List Nat) (s : GState), idxs.Nodup →
      onCount tw th s.pat = idxs.length →
      onSet tw th (gLoop tw th E .maxSample false (idxs.map some) s).pat = ∅ ∧
      (gLoop tw th E .maxSample false (idxs.map some) s).stepc
        = s.stepc + idxs.length ∧
      (∀ i, i ∉ idxs →
        (gLoop tw th E .maxSample false (idxs.map some) s).seq i = s.seq i) ∧
      (∀ i ∈ idxs, ∃ p,
        (gLoop tw th E .maxSample false (idxs.map some) s).seq i = some p ∧
        p ∈ onSet tw th s.pat) ∧
      (∀ i ∈ idxs, ∀ j ∈ idxs, ∀ p,
        (gLoop tw th E .maxSample false (idxs.map some) s).seq i = some p →
        (gLoop tw th E .maxSample false (idxs.map some) s).seq j = some p →
        i = j) ∧
      (∀ p ∈ onSet tw th s.pat, ∃ i ∈ idxs,
        (gLoop tw th E .maxSample false (idxs.map some) s).seq i = some p) := by
  intro idxs
  induction idxs with
  | nil =>
      intro s _ hcard
      refine ⟨?_, rfl, fun _ _ => rfl, fun i hi => absurd hi (List.not_mem_nil i),
        fun i hi => absurd hi (List.not_mem_nil i),
        fun p hp => ?_⟩
      · have : (onSet tw th s.pat).card = 0 := hcard
        exact Finset.card_eq_zero.mp this
      · have : (onSet tw th s.pat).card = 0 := hcard
        rw [Finset.card_eq_zero.mp this] at hp
        exact absurd hp (Finset.not_mem_empty p)
  | cons i rest ih =>
      intro s hnd hcard
      have hndr : rest.Nodup := (List.nodup_cons.mp hnd).2
      have hir : i ∉ rest := (List.nodup_cons.mp hnd).1
      have hpos : 0 < (onSet tw th s.pat).card := by
        have hc : onCount tw th s.pat = rest.length + 1 := by
          rw [hcard]; rfl
        unfold onCount at hc
        omega
      obtain ⟨q0, hq0⟩ := Finset.card_pos.mp hpos
      have hq0' := (mem_onSet tw th s.pat q0).mp hq0
      have hexe : ∃ p ∈ domD tw th,
          eligible SampleMode.maxSample (s.pat p) = true :=
        ⟨q0, hq0'.1, by simpa [eligible] using hq0'.2⟩
      obtain ⟨q, hqD, hqe, hpat, hseq, hstep⟩ :=
        gStep_char tw th E .maxSample false (some i) s htw hth hE hexe
      set s' := gStep tw th E .maxSample false (some i) s with hs'
      have hseq' : s'.seq = Function.update s.seq i (some q) := hseq
      have hqon : q ∈ onSet tw th s.pat :=
        (mem_onSet tw th s.pat q).mpr ⟨hqD, by simpa [eligible] using hqe⟩
      have hfold : gLoop tw th E .maxSample false ((i :: rest).map some) s
          = gLoop tw th E .maxSample false (rest.map some) s' := rfl
      have honset' : onSet tw th s'.pat = (onSet tw th s.pat).erase q := by
        rw [hpat]
        exact onSet_update_false tw th s.pat q
      have hcard' : onCount tw th s'.pat = rest.length := by
        unfold onCount
        rw [honset', Finset.card_erase_of_mem hqon]
        have hc : onCount tw th s.pat = rest.length + 1 := by
          rw [hcard]; rfl
        unfold onCount at hc
        omega
      obtain ⟨iha, ihb, ihc, ihd, ihe, ihf⟩ := ih s' hndr hcard'
      rw [hfold]
      refine ⟨iha, ?_, ?_, ?_, ?_, ?_⟩
      · rw [ihb, hstep]
        simp [List.length_cons]
        omega
      · intro i' hi'
        have hi'i : i' ≠ i := fun h => hi' (h ▸ List.mem_cons_self i rest)
        have hi'r : i' ∉ rest := fun h => hi' (List.mem_cons_of_mem i h)
        rw [ihc i' hi'r, hseq', Function.update_noteq hi'i]
      · intro j hj
        rcases List.mem_cons.mp hj with hji | hjr
        · subst hji
          refine ⟨q, ?_, hqon⟩
          rw [ihc j hir, hseq', Function.update_same]
        · obtain ⟨p, hp1, hp2⟩ := ihd j hjr
          refine ⟨p, hp1, ?_⟩
          rw [honset'] at hp2
          exact Finset.mem_of_mem_erase hp2
      · intro j hj j2 hj2 p hpj hpj2
        have hvi : (gLoop tw th E .maxSample false (rest.map some) s').seq i
            = some q := by
          rw [ihc i hir, hseq', Function.update_same]
        rcases List.mem_cons.mp hj with h1 | h1 <;>
          rcases List.mem_cons.mp hj2 with h2 | h2
        · rw [h1, h2]
        · exfalso
          subst h1
          rw [hvi] at hpj
          obtain ⟨p2, hp21, hp22⟩ := ihd j2 h2
          rw [hpj2] at hp21
          have hpq : p = q := (Option.some.inj hpj).symm
          have hp2q : p2 = p := (Option.some.inj hp21).symm
          rw [honset'] at hp22
          rw [hp2q, hpq] at hp22
          exact (Finset.not_mem_erase q _) hp22
        · exfalso
          subst h2
          rw [hvi] at hpj2
          obtain ⟨p2, hp21, hp22⟩ := ihd j h1
          rw [hpj] at hp21
          have hpq : p = q := (Option.some.inj hpj2).symm
          have hp2q : p2 = p := (Option.some.inj hp21).symm
          rw [honset'] at hp22
          rw [hp2q, hpq] at hp22
          exact (Finset.not_mem_erase q _) hp22
        · exact ihe j h1 j2 h2 p hpj hpj2
      · intro p hp
        by_cases hpq : p = q
        · subst hpq
          refine ⟨i, List.mem_cons_self i rest, ?_⟩
          rw [ihc i hir, hseq', Function.update_same]
        · have hp' : p ∈ onSet tw th s'.pat := by
            rw [honset']
            exact Finset.mem_erase.mpr ⟨hpq, hp⟩
          obtain ⟨j, hj, hjv⟩ := ihf p hp'
          exact ⟨j, List.mem_cons_of_mem i hj, hjv⟩

/-- Specification of an addition loop (`min_sample_kernel`, value `1.0`),
the shape of phase 2: while free off-pixels remain, a `Nodup` index list
records distinct previously-off pixels and turns them on. -/
theorem gLoop_add (tw th : Nat) (E : Nat → Pos → Int)
    (htw : 0 < tw) (hth : 0 < th) (hE : EBounded tw th E) :
    ∀ (idxs : List Nat) (s : GState), idxs.Nodup →
      onCount tw th s.pat + idxs.length ≤ 256 * (tw * th) →
      onCount tw th (gLoop tw th E .minSample true (idxs.map some) s).pat
        = onCount tw th s.pat + idxs.length ∧
      (gLoop tw th E .minSample true (idxs.map some) s).stepc
        = s.stepc + idxs.length ∧
      (∀ i, i ∉ idxs →
        (gLoop tw th E .minSample true (idxs.map some) s).seq i = s.seq i) ∧
      (∀ i ∈ idxs, ∃ p,
        (gLoop tw th E .minSample true (idxs.map some) s).seq i = some p ∧
        p ∈ domD tw th ∧ s.pat p = false) ∧
      (∀ i ∈ idxs, ∀ j ∈ idxs, ∀ p,
        (gLoop tw th E .minSample true (idxs.map some) s).seq i = some p →
        (gLoop tw th E .minSample true (idxs.map some) s).seq j = some p →
        i = j) ∧
      (∀ p ∈ domD tw th,
        ((gLoop tw th E .minSample true (idxs.map some) s).pat p = true ↔
          s.pat p = true ∨ ∃ i ∈ idxs,
            (gLoop tw th E .minSample true (idxs.map some) s).seq i = some p)) := by
  intro idxs
  induction idxs with
  | nil =>
      intro s _ _
      refine ⟨rfl, rfl, fun _ _ => rfl,
        fun i hi => absurd hi (List.not_mem_nil i),
        fun i hi => absurd hi (List.not_mem_nil i),
        fun p _ => ?_⟩
      simp [gLoop]
  | cons i rest ih =>
      intro s hnd hbound
      have hndr : rest.Nodup := (List.nodup_cons.mp hnd).2
      have hir : i ∉ rest := (List.nodup_cons.mp hnd).1
      -- an off pixel exists
      have hlt : (onSet tw th s.pat).card < (domD tw th).card := by
        rw [card_domD]
        have : onCount tw th s.pat = (onSet tw th s.pat).card := rfl
        have hlen : (i :: rest).length = rest.length + 1 := rfl
        omega
      have hexe : ∃ p ∈ domD tw th,
          eligible SampleMode.minSample (s.pat p) = true := by
        by_contra hno
        push_neg at hno
        have hall : ∀ p ∈ domD tw th, s.pat p = true := by
          intro p hp
          have := hno p hp
          simpa [eligible] using this
        have : onSet tw th s.pat = domD tw th := by
          apply Finset.Subset.antisymm
          · exact Finset.filter_subset _ _
          · intro p hp
            exact (mem_onSet tw th s.pat p).mpr ⟨hp, hall p hp⟩
        rw [this] at hlt
        omega
      obtain ⟨q, hqD, hqe, hpat, hseq, hstep⟩ :=
        gStep_char tw th E .minSample true (some i) s htw hth hE hexe
      have hqoff : s.pat q = false := by
        have := hqe
        simp [eligible] at this
        exact this
      set s' := gStep tw th E .minSample true (some i) s with hs'
      have hseq' : s'.seq = Function.update s.seq i (some q) := hseq
      have hfold : gLoop tw th E .minSample true ((i :: rest).map some) s
          = gLoop tw th E .minSample true (rest.map some) s' := rfl
      have hqnotin : q ∉ onSet tw th s.pat := by
        intro h
        rw [mem_onSet] at h
        rw [hqoff] at h
        exact absurd h.2 (by simp)
      have honset' : onSet tw th s'.pat = insert q (onSet tw th s.pat) := by
        rw [hpat]
        exact onSet_update_true tw th s.pat q hqD
      have hcard' : onCount tw th s'.pat = onCount tw th s.pat + 1 := by
        unfold onCount
        rw [honset', Finset.card_insert_of_not_mem hqnotin]
      have hbound' : onCount tw th s'.pat + rest.length ≤ 256 * (tw * th) := by
        rw [hcard']
        have hlen : (i :: rest).length = rest.length + 1 := rfl
        omega
      obtain ⟨iha, ihb, ihc, ihd, ihe, ihf⟩ := ih s' hndr hbound'
      rw [hfold]
      have hvi : (gLoop tw th E .minSample true (rest.map some) s').seq i
          = some q := by
        rw [ihc i hir, hseq', Function.update_same]
      refine ⟨?_, ?_, ?_, ?_, ?_, ?_⟩
      · rw [iha, hcard']
        have hlen : (i :: rest).length = rest.length + 1 := rfl
        omega
      · rw [ihb, hstep]
        have hlen : (i :: rest).length = rest.length + 1 := rfl
        omega
      · intro i' hi'
        have hi'i : i' ≠ i := fun h => hi' (h ▸ List.mem_cons_self i rest)
        have hi'r : i' ∉ rest := fun h => hi' (List.mem_cons_of_mem i h)
        rw [ihc i' hi'r, hseq', Function.update_noteq hi'i]
      · intro j hj
        rcases List.mem_cons.mp hj with hji | hjr
        · subst hji
          exact ⟨q, hvi, hqD, hqoff⟩
        · obtain ⟨p, hp1, hp2, hp3⟩ := ihd j hjr
          refine ⟨p, hp1, hp2, ?_⟩
          rw [hpat, Function.update_apply] at hp3
          by_cases hpq : p = q
          · rw [if_pos hpq] at hp3
            exact absurd hp3 (by simp)
          · rw [if_neg hpq] at hp3
            exact hp3
      · intro j hj j2 hj2 p hpj hpj2
        rcases List.mem_cons.mp hj with h1 | h1 <;>
          rcases List.mem_cons.mp hj2 with h2 | h2
        · rw [h1, h2]
        · exfalso
          subst h1
          rw [hvi] at hpj
          have hpq : p = q := (Option.some.inj hpj).symm
          obtain ⟨p2, hp21, hp22, hp23⟩ := ihd j2 h2
          rw [hpj2] at hp21
          have hp2q : p2 = p := (Option.some.inj hp21).symm
          rw [hp2q, hpq, hpat, Function.update_same] at hp23
          exact absurd hp23 (by simp)
        · exfalso
          subst h2
          rw [hvi] at hpj2
          have hpq : p = q := (Option.some.inj hpj2).symm
          obtain ⟨p2, hp21, hp22, hp23⟩ := ihd j h1
          rw [hpj] at hp21
          have hp2q : p2 = p := (Option.some.inj hp21).symm
          rw [hp2q, hpq, hpat, Function.update_same] at hp23
          exact absurd hp23 (by simp)
        · exact ihe j h1 j2 h2 p hpj hpj2
      · intro p hp
        have hiff := ihf p hp
        rw [hiff]
        constructor
        · rintro (hs | ⟨j, hj, hjv⟩)
          · rw [hpat, Function.update_apply] at hs
            by_cases hpq : p = q
            · subst hpq
              exact Or.inr ⟨i, List.mem_cons_self i rest, hvi⟩
            · rw [if_neg hpq] at hs
              exact Or.inl hs
          · exact Or.inr ⟨j, List.mem_cons_of_mem i hj, hjv⟩
        · rintro (hs | ⟨j, hj, hjv⟩)
          · left
            rw [hpat, Function.update_apply]
            by_cases hpq : p = q
            · rw [if_pos hpq]
            · rw [if_neg hpq]
              exact hs
          · rcases List.mem_cons.mp hj with hji | hjr
            · subst hji
              rw [hvi] at hjv
              have hpq : p = q := (Option.some.inj hjv).symm
              left
              rw [hpat, hpq, Function.update_same]
            · exact Or.inr ⟨j, hjr, hjv⟩

/-- A `sequence_buffer` slot is only written by a `dispatch_kernel` call
carrying exactly that index. -/
theorem gLoop_seq_untouched (tw th : Nat) (E : Nat → Pos → Int)
    (mode : SampleMode) (value : Bool) :
    ∀ (idxs : List (Option Nat)) (s : GState) (r : Nat),
      (∀ o ∈ idxs, o ≠ some r) →
      (gLoop tw th E mode value idxs s).seq r = s.seq r := by
  intro idxs
  induction idxs with
  | nil => intro s r _; rfl
  | cons o rest ih =>
      intro s r hno
      have hfold : gLoop tw th E mode value (o :: rest) s
          = gLoop tw th E mode value rest (gStep tw th E mode value o s) := rfl
      rw [hfold, ih _ r (fun o' ho' => hno o' (List.mem_cons_of_mem o ho'))]
      cases o with
      | none => rfl
      | some i =>
          have hir : i ≠ r := by
            intro h
            exact hno (some i) (List.mem_cons_self _ _) (by rw [h])
          show Function.update s.seq i _ r = s.seq r
          rw [Function.update_noteq (Ne.symm hir)]

theorem mem_take_reverse_range (P i x : Nat)
    (hx : x ∈ ((List.range P).reverse).take i) : P - i ≤ x ∧ x < P := by
  rw [List.take_reverse] at hx
  rw [List.mem_reverse] at hx
  simp only [List.length_range] at hx
  obtain ⟨j, hj, hg⟩ := List.mem_iff_getElem.mp hx
  rw [List.getElem_drop] at hg
  rw [List.getElem_range] at hg
  simp [List.length_drop] at hj
  omega

theorem onCount_not (tw th : Nat) (pat : Pos → Bool) :
    onCount tw th (fun p => !pat p) = 256 * (tw * th) - onCount tw th pat := by
  unfold onCount onSet
  have hset : (domD tw th).filter (fun p => (!pat p) = true)
      = domD tw th \ (domD tw th).filter (fun p => pat p = true) := by
    ext p
    simp [Finset.mem_filter, Finset.mem_sdiff]
    tauto
  rw [hset, Finset.card_sdiff (Finset.filter_subset _ _), card_domD]

/-- C1: for every generated layer (phases 1–3 of `BlueNoise::dispatch` on a
seed with `P = num_positions` on-pixels, `P ≤ pixelCount/2`, energies inside
the sentinel band): phase 1 assigns ranks `P-1` down to `0` (after its first
`i` steps only slots `[P-i, P)` are written), phase 2 assigns exactly
`[P, pixelCount/2)` to previously-off pixels, phase 3 assigns exactly
`[pixelCount/2, pixelCount)`, no slot is written twice across phase
boundaries, and the final `sequence_buffer` pairs every rank in
`[0, pixelCount)` with a distinct pixel position, every position appearing
exactly once. -/
theorem rank_bijection (tw th P : Nat) (E : Nat → Pos → Int) (st : DriverState)
    (htw : 0 < tw) (hth : 0 < th) (hE : EBounded tw th E)
    (hP : P = onCount tw th st.noise)
    (hhalf : P ≤ 256 * (tw * th) / 2) :
    (∀ i, i ≤ P → ∀ r, r < P - i →
      (gLoop tw th E .maxSample false
        ((((List.range P).reverse).map some).take i)
        ⟨st.stepc, st.noise, st.seq⟩).seq r = st.seq r) ∧
    (∀ r, P ≤ r → (layerPhase1 tw th E P st).seq r = st.seq r) ∧
    (∀ r, r < P → ∃ p, (layerPhase1 tw th E P st).seq r = some p ∧
      p ∈ onSet tw th st.noise) ∧
    (∀ r, r < P ∨ 256 * (tw * th) / 2 ≤ r →
      (layerPhase2 tw th E P (256 * (tw * th) / 2)
        (layerPhase1 tw th E P st)).seq r = (layerPhase1 tw th E P st).seq r) ∧
    (∀ r, P ≤ r → r < 256 * (tw * th) / 2 → ∃ p,
      (layerPhase2 tw th E P (256 * (tw * th) / 2)
        (layerPhase1 tw th E P st)).seq r = some p ∧ p ∈ domD tw th ∧
      st.noise p = false) ∧
    (∀ r, r < 256 * (tw * th) / 2 →
      (layerRun tw th E P st).seq r =
        (layerPhase2 tw th E P (256 * (tw * th) / 2)
          (layerPhase1 tw th E P st)).seq r) ∧
    (∀ r, r < 256 * (tw * th) → ∃ p,
      (layerRun tw th E P st).seq r = some p ∧ p ∈ domD tw th) ∧
    (∀ r, r < 256 * (tw * th) → ∀ r2, r2 < 256 * (tw * th) → ∀ p,
      (layerRun tw th E P st).seq r = some p →
      (layerRun tw th E P st).seq r2 = some p → r = r2) ∧
    (∀ p, p ∈ domD tw th → ∃ r, r < 256 * (tw * th) ∧
      (layerRun tw th E P st).seq r = some p) := by
  have hM : 0 < tw * th := Nat.mul_pos htw hth
  set M := tw * th with hMdef
  set NP : Nat := 256 * M with hNPdef
  set HF : Nat := 256 * M / 2 with hHFdef
  have hHFle : HF ≤ NP := by omega
  -- phase 1
  obtain ⟨R1a, R1b, R1c, R1d, R1e, R1f⟩ :=
    gLoop_remove tw th E htw hth hE ((List.range P).reverse)
      ⟨st.stepc, st.noise, st.seq⟩
      (List.nodup_reverse.mpr (List.nodup_range P))
      (show onCount tw th st.noise = ((List.range P).reverse).length by
        rw [List.length_reverse, List.length_range]; exact hP.symm)
  set g1 := gLoop tw th E .maxSample false (((List.range P).reverse).map some)
    ⟨st.stepc, st.noise, st.seq⟩ with hg1def
  -- phase 2
  obtain ⟨R2a, R2b, R2c, R2d, R2e, R2f⟩ :=
    gLoop_add tw th E htw hth hE (List.range' P (HF - P))
      ⟨g1.stepc, st.noise, g1.seq⟩
      (List.nodup_range' P (HF - P))
      (show onCount tw th st.noise + (List.range' P (HF - P)).length ≤ 256 * M by
        rw [List.length_range']; omega)
  set g2 := gLoop tw th E .minSample true ((List.range' P (HF - P)).map some)
    ⟨g1.stepc, st.noise, g1.seq⟩ with hg2def
  have hg2card : onCount tw th g2.pat = HF := by
    have hRa : onCount tw th g2.pat
        = onCount tw th st.noise + (List.range' P (HF - P)).length := R2a
    rw [List.length_range'] at hRa
    omega
  -- phase 3
  obtain ⟨R3a, R3b, R3c, R3d, R3e, R3f⟩ :=
    gLoop_remove tw th E htw hth hE (List.range' HF (NP - HF))
      ⟨g2.stepc, fun p => !g2.pat p, g2.seq⟩
      (List.nodup_range' HF (NP - HF))
      (show onCount tw th (fun p => !g2.pat p) = (List.range' HF (NP - HF)).length by
        rw [onCount_not, hg2card, List.length_range'])
  set g3 := gLoop tw th E .maxSample false ((List.range' HF (NP - HF)).map some)
    ⟨g2.stepc, fun p => !g2.pat p, g2.seq⟩ with hg3def
  -- connection of driver states to the three loop results
  have e1 : (layerPhase1 tw th E P st).seq = g1.seq := rfl
  have e2 : (layerPhase2 tw th E P HF (layerPhase1 tw th E P st)).seq = g2.seq := rfl
  have e3 : (layerRun tw th E P st).seq = g3.seq := rfl
  -- untouched-slot transfer between phases
  have u2 : ∀ r, r < P ∨ HF ≤ r → g2.seq r = g1.seq r := by
    intro r hr
    apply R2c
    intro hmem
    rw [List.mem_range'_1] at hmem
    omega
  have u3 : ∀ r, r < HF → g3.seq r = g2.seq r := by
    intro r hr
    apply R3c
    intro hmem
    rw [List.mem_range'_1] at hmem
    omega
  have v1 : ∀ r, r < P → ∃ p, g1.seq r = some p ∧ p ∈ onSet tw th st.noise := by
    intro r hr
    apply R1d
    rw [List.mem_reverse, List.mem_range]
    exact hr
  have v2 : ∀ r, P ≤ r → r < HF → ∃ p, g2.seq r = some p ∧
      p ∈ domD tw th ∧ st.noise p = false := by
    intro r h1 h2
    apply R2d
    rw [List.mem_range'_1]
    omega
  have v3 : ∀ r, HF ≤ r → r < NP → ∃ p, g3.seq r = some p ∧
      p ∈ onSet tw th (fun p => !g2.pat p) := by
    intro r h1 h2
    apply R3d
    rw [List.mem_range'_1]
    omega
  have w1 : ∀ r, r < P → g3.seq r = g1.seq r := by
    intro r hr
    rw [u3 r (by omega), u2 r (Or.inl hr)]
  -- class analysis of positions recorded in the three rank bands
  have c1 : ∀ r, r < P → ∀ p, g3.seq r = some p →
      p ∈ domD tw th ∧ st.noise p = true ∧ g2.pat p = true := by
    intro r hr p hp
    rw [w1 r hr] at hp
    obtain ⟨p', hp'1, hp'2⟩ := v1 r hr
    rw [hp] at hp'1
    have hpp : p' = p := (Option.some.inj hp'1).symm
    subst hpp
    rw [mem_onSet] at hp'2
    refine ⟨hp'2.1, hp'2.2, ?_⟩
    rw [R2f p' hp'2.1]
    exact Or.inl hp'2.2
  have c2 : ∀ r, P ≤ r → r < HF → ∀ p, g3.seq r = some p →
      p ∈ domD tw th ∧ st.noise p = false ∧ g2.pat p = true ∧
      g2.seq r = some p := by
    intro r h1 h2 p hp
    rw [u3 r h2] at hp
    obtain ⟨p', hp'1, hp'2, hp'3⟩ := v2 r h1 h2
    rw [hp] at hp'1
    have hpp : p' = p := (Option.some.inj hp'1).symm
    subst hpp
    refine ⟨hp'2, hp'3, ?_, hp⟩
    rw [R2f p' hp'2]
    exact Or.inr ⟨r, by rw [List.mem_range'_1]; omega, hp⟩
  have c3 : ∀ r, HF ≤ r → r < NP → ∀ p, g3.seq r = some p →
      p ∈ domD tw th ∧ g2.pat p = false := by
    intro r h1 h2 p hp
    obtain ⟨p', hp'1, hp'2⟩ := v3 r h1 h2
    rw [hp] at hp'1
    have hpp : p' = p := (Option.some.inj hp'1).symm
    subst hpp
    rw [mem_onSet] at hp'2
    refine ⟨hp'2.1, ?_⟩
    have := hp'2.2
    simp at this
    exact this
  refine ⟨?_, ?_, ?_, ?_, ?_, ?_, ?_, ?_, ?_⟩
  · -- descending write order inside phase 1
    intro i hi r hr
    rw [← List.map_take]
    apply gLoop_seq_untouched
    intro o ho
    rw [List.mem_map] at ho
    obtain ⟨x, hx, hox⟩ := ho
    obtain ⟨hx1, hx2⟩ := mem_take_reverse_range P i x hx
    intro hcontra
    rw [← hox] at hcontra
    have : x = r := Option.some.inj hcontra
    omega
  · -- phase 1 leaves slots ≥ P unchanged
    intro r hr
    rw [e1]
    apply R1c
    rw [List.mem_reverse, List.mem_range]
    omega
  · -- phase 1 fills every slot < P with an initial on-pixel
    intro r hr
    rw [e1]
    exact v1 r hr
  · -- phase 2 leaves slots outside [P, HF) unchanged
    intro r hr
    rw [e1, e2]
    exact u2 r hr
  · -- phase 2 fills [P, HF) with previously-off pixels
    intro r h1 h2
    rw [e2]
    exact v2 r h1 h2
  · -- phase 3 leaves slots < HF unchanged
    intro r hr
    rw [e2, e3]
    exact u3 r hr
  · -- totality
    intro r hr
    rw [e3]
    rcases Nat.lt_or_ge r P with h1 | h1
    · obtain ⟨p, hp1, hp2⟩ := v1 r h1
      exact ⟨p, by rw [w1 r h1]; exact hp1, ((mem_onSet tw th st.noise p).mp hp2).1⟩
    · rcases Nat.lt_or_ge r HF with h2 | h2
      · obtain ⟨p, hp1, hp2, _⟩ := v2 r h1 h2
        exact ⟨p, by rw [u3 r h2]; exact hp1, hp2⟩
      · obtain ⟨p, hp1, hp2⟩ := v3 r h2 hr
        exact ⟨p, hp1, ((mem_onSet tw th _ p).mp hp2).1⟩
  · -- injectivity
    intro r hr r2 hr2 p hp hp2
    rw [e3] at hp hp2
    rcases Nat.lt_or_ge r P with a1 | a1
    · rcases Nat.lt_or_ge r2 P with b1 | b1
      · -- both in phase 1
        rw [w1 r a1] at hp
        rw [w1 r2 b1] at hp2
        refine R1e r ?_ r2 ?_ p hp hp2 <;>
          (rw [List.mem_reverse, List.mem_range]; omega)
      · rcases Nat.lt_or_ge r2 HF with b2 | b2
        · -- r phase 1, r2 phase 2
          exact absurd ((c2 r2 b1 b2 p hp2).2.1) (by rw [(c1 r a1 p hp).2.1]; simp)
        · -- r phase 1, r2 phase 3
          exact absurd ((c3 r2 b2 hr2 p hp2).2) (by rw [(c1 r a1 p hp).2.2]; simp)
    · rcases Nat.lt_or_ge r HF with a2 | a2
      · rcases Nat.lt_or_ge r2 P with b1 | b1
        · -- r phase 2, r2 phase 1
          exact absurd ((c2 r a1 a2 p hp).2.1) (by rw [(c1 r2 b1 p hp2).2.1]; simp)
        · rcases Nat.lt_or_ge r2 HF with b2 | b2
          · -- both phase 2
            rw [u3 r a2] at hp
            rw [u3 r2 b2] at hp2
            refine R2e r ?_ r2 ?_ p hp hp2 <;>
              (rw [List.mem_range'_1]; omega)
          · -- r phase 2, r2 phase 3
            exact absurd ((c3 r2 b2 hr2 p hp2).2)
              (by rw [(c2 r a1 a2 p hp).2.2.1]; simp)
      · rcases Nat.lt_or_ge r2 P with b1 | b1
        · -- r phase 3, r2 phase 1
          exact absurd ((c3 r a2 hr p hp).2) (by rw [(c1 r2 b1 p hp2).2.2]; simp)
        · rcases Nat.lt_or_ge r2 HF with b2 | b2
          · -- r phase 3, r2 phase 2
            exact absurd ((c3 r a2 hr p hp).2)
              (by rw [(c2 r2 b1 b2 p hp2).2.2.1]; simp)
          · -- both phase 3
            refine R3e r ?_ r2 ?_ p hp hp2 <;>
              (rw [List.mem_range'_1]; omega)
  · -- surjectivity
    intro p hpD
    rw [e3]
    by_cases hg2 : g2.pat p = true
    · rcases (R2f p hpD).mp hg2 with hs | ⟨i, hi, hiv⟩
      · -- an initial on-pixel: recorded by phase 1
        obtain ⟨i, hi, hiv⟩ := R1f p ((mem_onSet tw th st.noise p).mpr ⟨hpD, hs⟩)
        rw [List.mem_reverse, List.mem_range] at hi
        refine ⟨i, by omega, ?_⟩
        rw [w1 i hi]
        exact hiv
      · -- recorded by phase 2
        rw [List.mem_range'_1] at hi
        refine ⟨i, by omega, ?_⟩
        rw [u3 i (by omega)]
        exact hiv
    · -- off after phase 2: recorded by phase 3
      have hmem : p ∈ onSet tw th (fun q => !g2.pat q) := by
        rw [mem_onSet]
        refine ⟨hpD, ?_⟩
        simp [hg2]
      obtain ⟨i, hi, hiv⟩ := R3f p hmem
      rw [List.mem_range'_1] at hi
      exact ⟨i, by omega, hiv⟩

/-- Witness for `rank_bijection`: a 16×16 all-off seed (`P = 0`) with the
zero energy oracle; every hypothesis is discharged concretely and the
surjectivity component is obtained from the theorem. -/
theorem rank_bijection_witness :
    0 = onCount 1 1 (fun _ => false) ∧
    (∀ p, p ∈ domD 1 1 → ∃ r, r < 256 * (1 * 1) ∧
      (layerRun 1 1 (fun _ _ => 0) 0
        ⟨fun _ => false, fun _ => false, fun _ => none, 0⟩).seq r = some p) := by
  constructor
  · decide
  · exact (rank_bijection 1 1 0 (fun _ _ => 0)
      ⟨fun _ => false, fun _ => false, fun _ => none, 0⟩
      (by decide) (by decide)
      (fun n x y hx hy =>
        ⟨show -(10 ^ 9 : Int) < 0 by decide, show (0 : Int) < 10 ^ 9 by decide⟩)
      (by decide) (by decide)).2.2.2.2.2.2.2.2

/-- Row-major per-pixel candidates of the whole image: the order in which a
sequential fallback scan (spec §9, "a sequential fallback that simply scans
… in a loop") would visit the pixels. -/
def rowMajor (w : Nat) (mode : SampleMode) (pat : Pos → Bool)
    (energy : Pos → Int) : Nat → Cand :=
  fun i => ⟨(i % w, i / w), pixWeight mode pat energy (i % w, i / w)⟩

/-- Modelled from the spec: the sequential whole-image scan for the
maximum-weight pixel that the two-stage reduction is claimed to be
functionally identical to. -/
def seqScanSpec (tw th : Nat) (pat : Pos → Bool) (energy : Pos → Int)
    (mode : SampleMode) : Cand :=
  scanMax (rowMajor (16 * tw) mode pat energy) 0 (256 * (tw * th) - 1)

/-- C6: the two-stage extremal search (per-tile shared-memory tree
reduction writing one candidate per tile, then one global reduction over
the tile candidates) returns exactly one (position, weight) pair whose
weight equals the result of a sequential scan over all pixels for the
maximum weight — in particular it is the global maximum of the per-pixel
weights — and whose position is a pixel carrying that weight.  (Tie-break
order between equally-weighted pixels is implementation-defined in the
spec and may differ between the two.) -/
theorem two_stage_reduction_equiv (tw th : Nat) (pat : Pos → Bool)
    (energy : Pos → Int) (mode : SampleMode) (htw : 0 < tw) (hth : 0 < th)
    (hbound : ∀ x y, x < 16 * tw → y < 16 * th →
      sentinel ≤ pixWeight mode pat energy (x, y)) :
    (searchResult tw th pat energy mode).weight
      = (seqScanSpec tw th pat energy mode).weight ∧
    (∀ x y, x < 16 * tw → y < 16 * th →
      pixWeight mode pat energy (x, y) ≤
        (searchResult tw th pat energy mode).weight) ∧
    (searchResult tw th pat energy mode).pos.1 < 16 * tw ∧
    (searchResult tw th pat energy mode).pos.2 < 16 * th ∧
    pixWeight mode pat energy (searchResult tw th pat energy mode).pos
      = (searchResult tw th pat energy mode).weight := by
  obtain ⟨h1, h2, h3, h4⟩ := search_spec tw th pat energy mode htw hth hbound
  have hNsplit : 256 * (tw * th) = (16 * tw) * (16 * th) := by ring
  have hwpos : 0 < 16 * tw := by omega
  -- the sequential scan attains its weight at a pixel
  have hseqmem : ∃ x y, x < 16 * tw ∧ y < 16 * th ∧
      (seqScanSpec tw th pat energy mode).weight
        = pixWeight mode pat energy (x, y) := by
    obtain ⟨j, hj, hjeq⟩ := scanMax_mem (rowMajor (16 * tw) mode pat energy) 0
      (256 * (tw * th) - 1)
    rw [Nat.zero_add] at hjeq
    refine ⟨j % (16 * tw), j / (16 * tw), Nat.mod_lt _ hwpos, ?_, ?_⟩
    · have hMpos : 0 < tw * th := Nat.mul_pos htw hth
      have hjN : j < (16 * tw) * (16 * th) := by
        have hjn : j < 256 * (tw * th) := by omega
        rw [hNsplit] at hjn
        exact hjn
      rcases Nat.lt_or_ge (j / (16 * tw)) (16 * th) with h | h
      · exact h
      · exfalso
        have hle : (16 * tw) * (16 * th) ≤ (16 * tw) * (j / (16 * tw)) :=
          Nat.mul_le_mul_left _ h
        have hdm : (16 * tw) * (j / (16 * tw)) ≤ j := Nat.mul_div_le j _
        omega
    · rw [show seqScanSpec tw th pat energy mode
          = rowMajor (16 * tw) mode pat energy j from hjeq]
      rfl
  -- the sequential scan dominates every pixel
  have hseqge : ∀ x y, x < 16 * tw → y < 16 * th →
      pixWeight mode pat energy (x, y) ≤
        (seqScanSpec tw th pat energy mode).weight := by
    intro x y hx hy
    have hidx : (16 * tw) * y + x ≤ 256 * (tw * th) - 1 := by
      have h1 : (16 * tw) * y + x < (16 * tw) * (y + 1) := by
        rw [Nat.mul_succ]
        omega
      have h2 : (16 * tw) * (y + 1) ≤ (16 * tw) * (16 * th) :=
        Nat.mul_le_mul_left _ (by omega)
      rw [← hNsplit] at h2
      omega
    have h := scanMax_le (rowMajor (16 * tw) mode pat energy) 0
      (256 * (tw * th) - 1) ((16 * tw) * y + x) hidx
    rw [Nat.zero_add] at h
    have hrow : rowMajor (16 * tw) mode pat energy ((16 * tw) * y + x)
        = ⟨(x, y), pixWeight mode pat energy (x, y)⟩ := by
      unfold rowMajor
      have hm : ((16 * tw) * y + x) % (16 * tw) = x := by
        rw [Nat.mul_add_mod]
        exact Nat.mod_eq_of_lt hx
      have hd : ((16 * tw) * y + x) / (16 * tw) = y := by
        rw [Nat.mul_add_div hwpos, Nat.div_eq_of_lt hx]
        omega
      rw [hm, hd]
    rw [hrow] at h
    exact h
  obtain ⟨xs, ys, hxs, hys, hws⟩ := hseqmem
  refine ⟨?_, h4, h1, h2, h3⟩
  apply le_antisymm
  · rw [← h3]
    have := hseqge (searchResult tw th pat energy mode).pos.1
      (searchResult tw th pat energy mode).pos.2 h1 h2
    rw [Prod.mk.eta] at this
    exact this
  · rw [hws]
    exact h4 xs ys hxs hys

/-- Witness for `two_stage_reduction_equiv` with the zero energy field and
an all-off 16×16 pattern. -/
theorem two_stage_reduction_equiv_witness :
    (searchResult 1 1 (fun _ => false) (fun _ => 0) SampleMode.maxSample).weight
      = (seqScanSpec 1 1 (fun _ => false) (fun _ => 0) SampleMode.maxSample).weight :=
  (two_stage_reduction_equiv 1 1 (fun _ => false) (fun _ => 0)
    SampleMode.maxSample (by decide) (by decide)
    (fun x y hx hy => show sentinel ≤ sentinel from le_refl _)).1

theorem laneFold_stay (cand : Nat → Cand) (num lane : Nat) :
    ∀ (l : List Nat) (acc : Cand),
      (∀ i ∈ l, 256 * i + lane < num → (cand (256 * i + lane)).weight ≤ acc.weight) →
      l.foldl (laneStep cand num lane) acc = acc := by
  intro l
  induction l with
  | nil => intro acc _; rfl
  | cons x xs ih =>
      intro acc hle
      have hstep : laneStep cand num lane acc x = acc := by
        unfold laneStep
        split_ifs with hc
        · unfold combine
          rw [if_neg]
          have := hle x (List.mem_cons_self x xs) hc
          omega
        · rfl
      show xs.foldl (laneStep cand num lane) (laneStep cand num lane acc x) = acc
      rw [hstep]
      exact ih acc (fun i hi hc => hle i (List.mem_cons_of_mem x hi) hc)

/-- C10: when no eligible pixel exists, every pixel weight is the finite
`-1e9` sentinel rather than a true negative infinity, the two-stage search
still returns the defined winner `((0,0), -1e9)` (the `POSITION_SHADER`
lanes initialise to that record and only strictly greater weights replace
it), and the `UPDATE_SHADER` step unconditionally stores the target value
at that winning position instead of rejecting the call. -/
theorem search_no_eligible_total (tw th : Nat) (E : Nat → Pos → Int)
    (mode : SampleMode) (value : Bool) (idx : Option Nat) (s : GState)
    (htw : 0 < tw) (hth : 0 < th)
    (hno : ∀ p ∈ domD tw th, eligible mode (s.pat p) = false) :
    (∀ p ∈ domD tw th, pixWeight mode s.pat (E s.stepc) p = sentinel) ∧
    searchResult tw th s.pat (E s.stepc) mode = ⟨(0, 0), sentinel⟩ ∧
    (gStep tw th E mode value idx s).pat (0, 0) = value := by
  have hsent : ∀ p ∈ domD tw th, pixWeight mode s.pat (E s.stepc) p = sentinel := by
    intro p hp
    unfold pixWeight
    rw [sampleWeight_eq, if_neg]
    rw [hno p hp]
    simp
  have hcand : ∀ idx2, idx2 < tw * th →
      (candAt mode s.pat (E s.stepc) tw idx2).weight ≤ sentinel := by
    intro idx2 hidx2
    have hgx : idx2 % tw < tw := Nat.mod_lt _ htw
    have hgy : idx2 / tw < th := by
      rcases Nat.lt_or_ge (idx2 / tw) th with h | h
      · exact h
      · exfalso
        have h1 : tw * th ≤ tw * (idx2 / tw) := Nat.mul_le_mul_left tw h
        have h2 : tw * (idx2 / tw) ≤ idx2 := Nat.mul_div_le idx2 tw
        omega
    unfold candAt
    obtain ⟨x, y, hx1, hx2, hy1, hy2, hc⟩ :=
      tileCand_mem mode s.pat (E s.stepc) (idx2 % tw) (idx2 / tw)
    rw [hc]
    have hxb : x < 16 * tw := by
      have : 16 * (idx2 % tw) + 16 ≤ 16 * tw := by
        have := Nat.mul_le_mul_left 16 (show idx2 % tw + 1 ≤ tw by omega)
        omega
      omega
    have hyb : y < 16 * th := by
      have : 16 * (idx2 / tw) + 16 ≤ 16 * th := by
        have := Nat.mul_le_mul_left 16 (show idx2 / tw + 1 ≤ th by omega)
        omega
      omega
    rw [hsent (x, y) ((mem_domD tw th (x, y)).mpr ⟨hxb, hyb⟩)]
  have hlane : ∀ lane, laneAcc (candAt mode s.pat (E s.stepc) tw) (tw * th) lane
      = ⟨(0, 0), sentinel⟩ := by
    intro lane
    unfold laneAcc
    exact laneFold_stay _ _ _ _ _ (fun i _ hc => hcand _ hc)
  have hsr : searchResult tw th s.pat (E s.stepc) mode = ⟨(0, 0), sentinel⟩ := by
    rw [searchResult_eq_scanMax]
    obtain ⟨lane, _, heq⟩ := scanMax_mem
      (laneAcc (candAt mode s.pat (E s.stepc) tw) (tw * th)) 0 255
    rw [heq, hlane]
  refine ⟨hsent, hsr, ?_⟩
  show Function.update s.pat _ value (0, 0) = value
  rw [show (((updateRemapAxis (16 * tw) (16 * tw)
        ((searchResult tw th s.pat (E s.stepc) mode).pos.1 : Nat)).toNat,
       (updateRemapAxis (16 * th) (16 * th)
        ((searchResult tw th s.pat (E s.stepc) mode).pos.2 : Nat)).toNat) : Pos)
      = ((0, 0) : Pos) by
    rw [hsr]
    show (((updateRemapAxis (16 * tw) (16 * tw) ((0 : Nat) : Int)).toNat,
          (updateRemapAxis (16 * th) (16 * th) ((0 : Nat) : Int)).toNat) : Pos) = _
    rw [updateRemapAxis_self _ _ (by omega), updateRemapAxis_self _ _ (by omega)]
    simp]
  rw [Function.update_same]

/-- Witness for `search_no_eligible_total`: all-off 16×16 pattern under the
cluster policy (no on pixel is eligible), arbitrary zero energies. -/
theorem search_no_eligible_total_witness :
    (∀ p ∈ domD 1 1, eligible SampleMode.maxSample ((fun _ => false) p) = false) ∧
    searchResult 1 1 (fun _ => false) ((fun _ _ => (0 : Int)) 0) SampleMode.maxSample
      = ⟨(0, 0), sentinel⟩ ∧
    (gStep 1 1 (fun _ _ => 0) SampleMode.maxSample true none
      ⟨0, fun _ => false, fun _ => none⟩).pat (0, 0) = true := by
  refine ⟨by decide, ?_, ?_⟩
  · exact (search_no_eligible_total 1 1 (fun _ _ => 0) SampleMode.maxSample true none
      ⟨0, fun _ => false, fun _ => none⟩ (by decide) (by decide) (by decide)).2.1
  · exact (search_no_eligible_total 1 1 (fun _ _ => 0) SampleMode.maxSample true none
      ⟨0, fun _ => false, fun _ => none⟩ (by decide) (by decide) (by decide)).2.2

/-- A 16×16 pattern with exactly two on-pixels, at `(1,0)` and `(2,0)`. -/
def cexPattern : Pos → Bool :=
  fun p => decide (p = (1, 0)) || decide (p = (2, 0))

/-- An energy field giving the on-pixel `(1,0)` energy `5`, the on-pixel
`(2,0)` energy `3`, and everything else `0`. -/
def cexEnergy : Pos → Int :=
  fun p => if p = (1, 0) then 5 else if p = (2, 0) then 3 else 0

/-- C2 counterexample: the cluster-tightening search (`MAX_SAMPLE_SHADER`,
the kernel whose winner is turned off) selects `(1,0)`, the on-pixel of
maximal `+energy`; the on-pixel `(2,0)` has strictly greater `-energy`, so
the winner is not the arg-max of `-energy` over on pixels as the claim
states — the negated metric belongs to the void mode, not the cluster
mode. -/
theorem cluster_negation_cex :
    (searchResult 1 1 cexPattern cexEnergy SampleMode.maxSample).pos = (1, 0) ∧
    cexPattern (2, 0) = true ∧
    ¬ (-(cexEnergy (2, 0)) ≤ -(cexEnergy (1, 0))) := by
  refine ⟨by decide, by decide, by decide⟩

/-- C2 amended: the exact asymmetry the code implements — cluster mode
(`MAX_SAMPLE_SHADER`) selects the arg-max of `+energy` over pixels whose
pattern value is on, void mode (`MIN_SAMPLE_SHADER`) selects the arg-max of
`-energy` over pixels whose pattern value is off, and a pixel ineligible
under the active policy has its weight forced to the `-1e9` sentinel and is
never selected as the winner while an eligible pixel exists. -/
theorem search_policy_asymmetry (tw th : Nat) (pat : Pos → Bool)
    (energy : Pos → Int) (htw : 0 < tw) (hth : 0 < th)
    (hE : ∀ x y, x < 16 * tw → y < 16 * th →
      -(10 ^ 9) < energy (x, y) ∧ energy (x, y) < 10 ^ 9) :
    (∀ p : Pos, pat p = false →
      pixWeight SampleMode.maxSample pat energy p = sentinel) ∧
    (∀ p : Pos, pat p = true →
      pixWeight SampleMode.minSample pat energy p = sentinel) ∧
    ((∃ p ∈ domD tw th, pat p = true) →
      (searchResult tw th pat energy SampleMode.maxSample).pos ∈ domD tw th ∧
      pat (searchResult tw th pat energy SampleMode.maxSample).pos = true ∧
      ∀ q ∈ domD tw th, pat q = true →
        energy q ≤ energy (searchResult tw th pat energy SampleMode.maxSample).pos) ∧
    ((∃ p ∈ domD tw th, pat p = false) →
      (searchResult tw th pat energy SampleMode.minSample).pos ∈ domD tw th ∧
      pat (searchResult tw th pat energy SampleMode.minSample).pos = false ∧
      ∀ q ∈ domD tw th, pat q = false →
        -(energy q) ≤ -(energy (searchResult tw th pat energy SampleMode.minSample).pos)) := by
  refine ⟨?_, ?_, ?_, ?_⟩
  · intro p hp
    unfold pixWeight sampleWeight
    rw [hp]
    rfl
  · intro p hp
    unfold pixWeight sampleWeight
    rw [hp]
    rfl
  · intro ⟨p, hpD, hpon⟩
    have hp12 := (mem_domD tw th p).mp hpD
    obtain ⟨h1, h2, h3, h4, h5⟩ := search_eligible tw th pat energy
      SampleMode.maxSample htw hth hE
      ⟨p.1, p.2, hp12.1, hp12.2, by
        show eligible SampleMode.maxSample (pat (p.1, p.2)) = true
        rw [Prod.mk.eta]
        simpa [eligible] using hpon⟩
    refine ⟨(mem_domD tw th _).mpr ⟨h1, h2⟩, by simpa [eligible] using h3, ?_⟩
    intro q hqD hqon
    have hq12 := (mem_domD tw th q).mp hqD
    have := h5 q.1 q.2 hq12.1 hq12.2 (by
      show eligible SampleMode.maxSample (pat (q.1, q.2)) = true
      rw [Prod.mk.eta]
      simpa [eligible] using hqon)
    rw [Prod.mk.eta] at this
    calc energy q ≤ (searchResult tw th pat energy SampleMode.maxSample).weight := this
    _ = energy (searchResult tw th pat energy SampleMode.maxSample).pos := h4
  · intro ⟨p, hpD, hpoff⟩
    have hp12 := (mem_domD tw th p).mp hpD
    obtain ⟨h1, h2, h3, h4, h5⟩ := search_eligible tw th pat energy
      SampleMode.minSample htw hth hE
      ⟨p.1, p.2, hp12.1, hp12.2, by
        show eligible SampleMode.minSample (pat (p.1, p.2)) = true
        rw [Prod.mk.eta]
        simp [eligible, hpoff]⟩
    have hoff : pat (searchResult tw th pat energy SampleMode.minSample).pos = false := by
      have := h3
      simp [eligible] at this
      exact this
    refine ⟨(mem_domD tw th _).mpr ⟨h1, h2⟩, hoff, ?_⟩
    intro q hqD hqoff
    have hq12 := (mem_domD tw th q).mp hqD
    have := h5 q.1 q.2 hq12.1 hq12.2 (by
      show eligible SampleMode.minSample (pat (q.1, q.2)) = true
      rw [Prod.mk.eta]
      simp [eligible, hqoff])
    rw [Prod.mk.eta] at this
    calc -(energy q) ≤ (searchResult tw th pat energy SampleMode.minSample).weight := this
    _ = -(energy (searchResult tw th pat energy SampleMode.minSample).pos) := h4

/-- Witness for `search_policy_asymmetry` on the two-on-pixel example. -/
theorem search_policy_asymmetry_witness :
    (∃ p ∈ domD 1 1, cexPattern p = true) ∧
    ((searchResult 1 1 cexPattern cexEnergy SampleMode.maxSample).pos ∈ domD 1 1 ∧
     cexPattern (searchResult 1 1 cexPattern cexEnergy SampleMode.maxSample).pos = true ∧
     ∀ q ∈ domD 1 1, cexPattern q = true →
       cexEnergy q ≤
         cexEnergy (searchResult 1 1 cexPattern cexEnergy SampleMode.maxSample).pos) := by
  refine ⟨by decide, ?_⟩
  exact (search_policy_asymmetry 1 1 cexPattern cexEnergy (by decide) (by decide)
    (fun x y hx hy =>
      ⟨by unfold cexEnergy; split_ifs <;> decide,
       by unfold cexEnergy; split_ifs <;> decide⟩)).2.2.1 (by decide)

/-- Modelled from the spec (§4.4, phase-0 row): one swap pair in the order
the claim states it — cluster-search first with its pixel turned off, then
void-search with its pixel turned on, no rank recorded. -/
def specPhase0Pair (tw th : Nat) (E : Nat → Pos → Int) (s : GState) : GState :=
  gStep tw th E .minSample true none (gStep tw th E .maxSample false none s)

/-- Modelled from the spec: the phase-0 loop with the claimed pair order. -/
def specPhase0G (tw th : Nat) (E : Nat → Pos → Int) (P : Nat)
    (s : GState) : GState :=
  (List.range P).foldl (fun s _ => specPhase0Pair tw th E s) s

/-- C3 counterexample: on a 16×16 seed with the single on-pixel `(3,0)`
and constant-zero energies, the code's phase 0 with one swap pair leaves
`(3,0)` on (the void search runs first, turning `(0,0)` on, and the
cluster search then removes `(0,0)` again), whereas the claimed
cluster-then-void order would remove `(3,0)` — so the step order inside a
pair is void-then-cluster, not cluster-then-void as claimed. -/
theorem phase0_order_cex :
    (phase0G 1 1 (fun _ _ => 0) 1
      ⟨0, fun p => decide (p = ((3, 0) : Pos)), fun _ => none⟩).pat (3, 0) = true ∧
    (specPhase0G 1 1 (fun _ _ => 0) 1
      ⟨0, fun p => decide (p = ((3, 0) : Pos)), fun _ => none⟩).pat (3, 0) = false := by
  refine ⟨by decide, by decide⟩

/-- C3 amended: phase 0 executes exactly `P` swap pairs as a fixed budget
with no convergence test (the step counter advances by exactly `2 * P`
dispatches for every seed and energy oracle, and the `(P+1)`-pair loop is
one more pair applied to the `P`-pair loop), no pair records a rank, and
within each pair the order is: first a void-search whose found off-pixel
is turned on, then a cluster-search whose found on-pixel is turned off. -/
theorem phase0_fixed_budget_order (tw th : Nat) (E : Nat → Pos → Int)
    (P : Nat) (st : DriverState) (htw : 0 < tw) (hth : 0 < th)
    (hE : EBounded tw th E) :
    (∀ r, (phase0 tw th E P st).seq r = st.seq r) ∧
    (phase0 tw th E P st).stepc = st.stepc + 2 * P ∧
    (∀ P' s, phase0G tw th E (P' + 1) s = phase0Pair tw th E (phase0G tw th E P' s)) ∧
    (∀ s : GState, onCount tw th s.pat < 256 * (tw * th) →
      ∃ v c, v ∈ domD tw th ∧ s.pat v = false ∧ c ∈ domD tw th ∧
        Function.update s.pat v true c = true ∧
        (phase0Pair tw th E s).pat
          = Function.update (Function.update s.pat v true) c false ∧
        (phase0Pair tw th E s).seq = s.seq ∧
        (phase0Pair tw th E s).stepc = s.stepc + 2) := by
  have hpairseq : ∀ s : GState, (phase0Pair tw th E s).seq = s.seq := by
    intro s
    rfl
  have hpairstep : ∀ s : GState, (phase0Pair tw th E s).stepc = s.stepc + 2 := by
    intro s
    rfl
  have hsucc : ∀ P' s, phase0G tw th E (P' + 1) s
      = phase0Pair tw th E (phase0G tw th E P' s) := by
    intro P' s
    unfold phase0G
    rw [List.range_succ, List.foldl_append]
    rfl
  have hGseq : ∀ k s, (phase0G tw th E k s).seq = s.seq := by
    intro k
    induction k with
    | zero => intro s; rfl
    | succ n ih =>
        intro s
        rw [hsucc n s, hpairseq, ih s]
  have hGstep : ∀ k s, (phase0G tw th E k s).stepc = s.stepc + 2 * k := by
    intro k
    induction k with
    | zero => intro s; rfl
    | succ n ih =>
        intro s
        rw [hsucc n s, hpairstep, ih s]
        ring
  refine ⟨fun r => ?_, ?_, hsucc, ?_⟩
  · show (phase0G tw th E P ⟨st.stepc, st.noise, st.seq⟩).seq r = st.seq r
    rw [hGseq]
  · show (phase0G tw th E P ⟨st.stepc, st.noise, st.seq⟩).stepc = st.stepc + 2 * P
    rw [hGstep]
  · intro s hcount
    -- an off pixel exists for the void search
    have hlt : (onSet tw th s.pat).card < (domD tw th).card := by
      rw [card_domD]
      exact hcount
    have hexoff : ∃ p ∈ domD tw th,
        eligible SampleMode.minSample (s.pat p) = true := by
      by_contra hno
      push_neg at hno
      have hall : ∀ p ∈ domD tw th, s.pat p = true := by
        intro p hp
        have := hno p hp
        simpa [eligible] using this
      have heq : onSet tw th s.pat = domD tw th := by
        apply Finset.Subset.antisymm
        · exact Finset.filter_subset _ _
        · intro p hp
          exact (mem_onSet tw th s.pat p).mpr ⟨hp, hall p hp⟩
      rw [heq] at hlt
      omega
    obtain ⟨v, hvD, hve, hvpat, hvseq, hvstep⟩ :=
      gStep_char tw th E .minSample true none s htw hth hE hexoff
    have hvoff : s.pat v = false := by
      have := hve
      simp [eligible] at this
      exact this
    set mid := gStep tw th E .minSample true none s with hmid
    have hexon : ∃ p ∈ domD tw th,
        eligible SampleMode.maxSample (mid.pat p) = true := by
      refine ⟨v, hvD, ?_⟩
      rw [hvpat]
      simp [eligible, Function.update_same]
    obtain ⟨c, hcD, hce, hcpat, hcseq, hcstep⟩ :=
      gStep_char tw th E .maxSample false none mid htw hth hE hexon
    have hcon : mid.pat c = true := by
      have := hce
      simpa [eligible] using this
    refine ⟨v, c, hvD, hvoff, hcD, ?_, ?_, ?_, ?_⟩
    · rw [← hvpat]
      exact hcon
    · show (gStep tw th E .maxSample false none mid).pat = _
      rw [hcpat, hvpat]
    · show (gStep tw th E .maxSample false none mid).seq = s.seq
      rw [hcseq, hvseq]
    · show (gStep tw th E .maxSample false none mid).stepc = s.stepc + 2
      rw [hcstep, hvstep]

/-- Witness for `phase0_fixed_budget_order`: one pair on the 16×16 seed
with the single on-pixel `(3,0)` and constant-zero energies. -/
theorem phase0_fixed_budget_order_witness :
    (∀ r, (phase0 1 1 (fun _ _ => 0) 1
      ⟨fun p => decide (p = ((3, 0) : Pos)), fun _ => false, fun _ => none, 0⟩).seq r
        = (fun _ => (none : Option Pos)) r) ∧
    (phase0 1 1 (fun _ _ => 0) 1
      ⟨fun p => decide (p = ((3, 0) : Pos)), fun _ => false, fun _ => none, 0⟩).stepc
      = 0 + 2 * 1 := by
  have h := phase0_fixed_budget_order 1 1 (fun _ _ => 0) 1
    ⟨fun p => decide (p = ((3, 0) : Pos)), fun _ => false, fun _ => none, 0⟩
    (by decide) (by decide)
    (fun n x y hx hy =>
      ⟨show -(10 ^ 9 : Int) < 0 by decide, show (0 : Int) < 10 ^ 9 by decide⟩)
  exact ⟨h.1, h.2.1⟩

/-- C4 counterexample: with the 16×16 seed whose single on-pixel is
`(3,0)` (`P = 1`) and constant-zero energies, after phase 1 the pattern
phase 1 operated on (`copy_texture`) has `(3,0)` off, while the pattern
phase 2 operates on (`noise_texture`) still has `(3,0)` on — so phase 2
does not run on the Pattern produced by phase 1. -/
theorem phase2_input_cex :
    (layerPhase1 1 1 (fun _ _ => 0) 1
      ⟨fun p => decide (p = ((3, 0) : Pos)), fun _ => false, fun _ => none, 0⟩).noise
      (3, 0) = true ∧
    (layerPhase1 1 1 (fun _ _ => 0) 1
      ⟨fun p => decide (p = ((3, 0) : Pos)), fun _ => false, fun _ => none, 0⟩).copy
      (3, 0) = false := by
  refine ⟨by decide, by decide⟩

/-- C4 amended: after phase 1's `P` cluster-removal steps the pattern those
steps operated on (the `copy_texture`) has 0 on-pixels; phase 2 performs
its `pixelCount/2 - P` void-search steps on `noise_texture`, the phase-0
pattern left untouched by phase 1 (which still has `P` on-pixels), and
ends with exactly `pixelCount/2` on-pixels there. -/
theorem phase2_counts (tw th P : Nat) (E : Nat → Pos → Int) (st : DriverState)
    (htw : 0 < tw) (hth : 0 < th) (hE : EBounded tw th E)
    (hP : P = onCount tw th st.noise)
    (hhalf : P ≤ 256 * (tw * th) / 2) :
    onCount tw th (layerPhase1 tw th E P st).copy = 0 ∧
    (layerPhase1 tw th E P st).noise = st.noise ∧
    (layerPhase2 tw th E P (256 * (tw * th) / 2)
      (layerPhase1 tw th E P st)).stepc
      = (layerPhase1 tw th E P st).stepc + (256 * (tw * th) / 2 - P) ∧
    onCount tw th (layerPhase2 tw th E P (256 * (tw * th) / 2)
      (layerPhase1 tw th E P st)).noise = 256 * (tw * th) / 2 := by
  have hM : 0 < tw * th := Nat.mul_pos htw hth
  set M := tw * th with hMdef
  set HF : Nat := 256 * M / 2 with hHFdef
  obtain ⟨R1a, R1b, R1c, R1d, R1e, R1f⟩ :=
    gLoop_remove tw th E htw hth hE ((List.range P).reverse)
      ⟨st.stepc, st.noise, st.seq⟩
      (List.nodup_reverse.mpr (List.nodup_range P))
      (show onCount tw th st.noise = ((List.range P).reverse).length by
        rw [List.length_reverse, List.length_range]; exact hP.symm)
  set g1 := gLoop tw th E .maxSample false (((List.range P).reverse).map some)
    ⟨st.stepc, st.noise, st.seq⟩ with hg1def
  obtain ⟨R2a, R2b, R2c, R2d, R2e, R2f⟩ :=
    gLoop_add tw th E htw hth hE (List.range' P (HF - P))
      ⟨g1.stepc, st.noise, g1.seq⟩
      (List.nodup_range' P (HF - P))
      (show onCount tw th st.noise + (List.range' P (HF - P)).length ≤ 256 * M by
        rw [List.length_range']; omega)
  set g2 := gLoop tw th E .minSample true ((List.range' P (HF - P)).map some)
    ⟨g1.stepc, st.noise, g1.seq⟩ with hg2def
  refine ⟨?_, rfl, ?_, ?_⟩
  · show onCount tw th g1.pat = 0
    unfold onCount
    rw [R1a]
    rfl
  · show g2.stepc = g1.stepc + (HF - P)
    have hRb : g2.stepc = g1.stepc + (List.range' P (HF - P)).length := R2b
    rw [List.length_range'] at hRb
    exact hRb
  · show onCount tw th g2.pat = HF
    have hRa : onCount tw th g2.pat
        = onCount tw th st.noise + (List.range' P (HF - P)).length := R2a
    rw [List.length_range'] at hRa
    omega

/-- Witness for `phase2_counts`: 16×16 all-off seed, `P = 0`. -/
theorem phase2_counts_witness :
    0 = onCount 1 1 (fun _ => false) ∧
    onCount 1 1 (layerPhase2 1 1 (fun _ _ => 0) 0 (256 * (1 * 1) / 2)
      (layerPhase1 1 1 (fun _ _ => 0) 0
        ⟨fun _ => false, fun _ => false, fun _ => none, 0⟩)).noise
      = 256 * (1 * 1) / 2 := by
  refine ⟨by decide, ?_⟩
  exact (phase2_counts 1 1 0 (fun _ _ => 0)
    ⟨fun _ => false, fun _ => false, fun _ => none, 0⟩
    (by decide) (by decide)
    (fun n x y hx hy =>
      ⟨show -(10 ^ 9 : Int) < 0 by decide, show (0 : Int) < 10 ^ 9 by decide⟩)
    (by decide) (by decide)).2.2.2

theorem phase0_noise (tw th : Nat) (E : Nat → Pos → Int) (P : Nat)
    (st : DriverState) :
    (phase0 tw th E P st).noise
      = (phase0G tw th E P ⟨st.stepc, st.noise, st.seq⟩).pat := rfl

theorem phase0G_succ (tw th : Nat) (E : Nat → Pos → Int) (P : Nat)
    (s : GState) :
    phase0G tw th E (P + 1) s = phase0Pair tw th E (phase0G tw th E P s) := by
  unfold phase0G
  rw [List.range_succ, List.foldl_append]
  rfl

theorem reduceRound_congr (n offset : Nat) (f g : Nat → Cand)
    (h : ∀ i, f i = g i) (i : Nat) :
    reduceRound n offset f i = reduceRound n offset g i := by
  unfold reduceRound
  rw [h i, h (i + offset)]

theorem treeReduce_congr (n : Nat) (f g : Nat → Cand) (h : ∀ i, f i = g i) :
    ∀ r i, treeReduce n f r i = treeReduce n g r i := by
  intro r
  induction r with
  | zero => exact h
  | succ r ih =>
      intro i
      show reduceRound n (2 ^ r) (treeReduce n f r) i
        = reduceRound n (2 ^ r) (treeReduce n g r) i
      exact reduceRound_congr n (2 ^ r) _ _ ih i

theorem laneFold_congr (cand cand' : Nat → Cand) (num lane : Nat)
    (h : ∀ i, cand i = cand' i) :
    ∀ (l : List Nat) (acc : Cand),
      l.foldl (laneStep cand num lane) acc
        = l.foldl (laneStep cand' num lane) acc := by
  intro l
  induction l with
  | nil => intro acc; rfl
  | cons x xs ih =>
      intro acc
      show xs.foldl (laneStep cand num lane) (laneStep cand num lane acc x)
        = xs.foldl (laneStep cand' num lane) (laneStep cand' num lane acc x)
      rw [show laneStep cand num lane acc x = laneStep cand' num lane acc x by
        unfold laneStep; rw [h (256 * x + lane)]]
      exact ih _

theorem searchResult_congr (tw th : Nat) (pat pat' : Pos → Bool)
    (energy : Pos → Int) (mode : SampleMode) (h : ∀ p, pat p = pat' p) :
    searchResult tw th pat energy mode = searchResult tw th pat' energy mode := by
  have htile : ∀ gx gy lid, tileInit mode pat energy gx gy lid
      = tileInit mode pat' energy gx gy lid := by
    intro gx gy lid
    have hred : ∀ (pp : Pos → Bool), tileInit mode pp energy gx gy lid
        = ⟨(16 * gx + lid % 16, 16 * gy + lid / 16),
           pixWeight mode pp energy (16 * gx + lid % 16, 16 * gy + lid / 16)⟩ :=
      fun pp => rfl
    rw [hred pat, hred pat']
    unfold pixWeight
    rw [h (16 * gx + lid % 16, 16 * gy + lid / 16)]
  have hca : ∀ idx, candAt mode pat energy tw idx = candAt mode pat' energy tw idx := by
    intro idx
    unfold candAt tileCand
    exact treeReduce_congr 256 _ _ (htile _ _) 8 0
  have hla : ∀ lane, laneAcc (candAt mode pat energy tw) (tw * th) lane
      = laneAcc (candAt mode pat' energy tw) (tw * th) lane := by
    intro lane
    unfold laneAcc
    exact laneFold_congr _ _ _ _ hca _ _
  unfold searchResult
  exact treeReduce_congr 256 _ _ hla 8 0

/-- The pattern update done by a `dispatch_kernel` call with a known search
result. -/
theorem gStep_pat_of_searchResult (tw th : Nat) (E : Nat → Pos → Int)
    (mode : SampleMode) (value : Bool) (idx : Option Nat) (s : GState)
    (w : Cand) (hw : searchResult tw th s.pat (E s.stepc) mode = w)
    (h1 : w.pos.1 < 16 * tw) (h2 : w.pos.2 < 16 * th) :
    (gStep tw th E mode value idx s).pat = Function.update s.pat w.pos value := by
  show Function.update s.pat _ value = _
  rw [show (((updateRemapAxis (16 * tw) (16 * tw)
        ((searchResult tw th s.pat (E s.stepc) mode).pos.1 : Nat)).toNat,
       (updateRemapAxis (16 * th) (16 * th)
        ((searchResult tw th s.pat (E s.stepc) mode).pos.2 : Nat)).toNat) : Pos)
      = w.pos by
    rw [hw, updateRemapAxis_self _ _ h1, updateRemapAxis_self _ _ h2]
    simp]

theorem onCount_congr (tw th : Nat) (pat pat' : Pos → Bool)
    (h : ∀ p, pat p = pat' p) : onCount tw th pat = onCount tw th pat' := by
  unfold onCount onSet
  congr 1
  apply Finset.filter_congr
  intro p _
  rw [h p]

/-- The all-on 16×16 pattern minus the pixel `(0,0)`. -/
def allButZero : Pos → Bool := fun p => !(decide (p = ((0, 0) : Pos)))

theorem phase0Pair_allOn (s : GState) (hA : ∀ p, s.pat p = true) :
    ∀ p, (phase0Pair 1 1 (fun _ _ => 0) s).pat p = allButZero p := by
  have hsr1 : searchResult 1 1 s.pat ((fun _ _ => (0 : Int)) s.stepc)
      SampleMode.minSample = ⟨(0, 0), sentinel⟩ := by
    rw [searchResult_congr 1 1 s.pat (fun _ => true) _ _ hA]
    show searchResult 1 1 (fun _ => true) (fun _ => (0 : Int))
      SampleMode.minSample = _
    decide
  have hpat1 : (gStep 1 1 (fun _ _ => 0) .minSample true none s).pat
      = Function.update s.pat (0, 0) true :=
    gStep_pat_of_searchResult 1 1 _ _ _ _ s ⟨(0, 0), sentinel⟩ hsr1
      (by decide) (by decide)
  have hmidA : ∀ p, (gStep 1 1 (fun _ _ => 0) .minSample true none s).pat p = true := by
    intro p
    rw [hpat1, Function.update_apply]
    split_ifs
    · rfl
    · exact hA p
  have hsr2 : searchResult 1 1
      (gStep 1 1 (fun _ _ => 0) .minSample true none s).pat
      ((fun _ _ => (0 : Int))
        (gStep 1 1 (fun _ _ => 0) .minSample true none s).stepc)
      SampleMode.maxSample = ⟨(0, 0), 0⟩ := by
    rw [searchResult_congr 1 1 _ (fun _ => true) _ _ hmidA]
    show searchResult 1 1 (fun _ => true) (fun _ => (0 : Int))
      SampleMode.maxSample = _
    decide
  have hpat2 : (phase0Pair 1 1 (fun _ _ => 0) s).pat
      = Function.update
          (gStep 1 1 (fun _ _ => 0) .minSample true none s).pat (0, 0) false :=
    gStep_pat_of_searchResult 1 1 _ _ _ _ _ ⟨(0, 0), 0⟩ hsr2
      (by decide) (by decide)
  intro p
  rw [hpat2, Function.update_apply]
  by_cases hp : p = ((0, 0) : Pos)
  · rw [if_pos hp, hp]
    decide
  · rw [if_neg hp, hmidA p]
    unfold allButZero
    rw [decide_eq_false hp]
    rfl

theorem phase0Pair_allButZero (s : GState)
    (hB : ∀ p, s.pat p = allButZero p) :
    ∀ p, (phase0Pair 1 1 (fun _ _ => 0) s).pat p = allButZero p := by
  have hsr1 : searchResult 1 1 s.pat ((fun _ _ => (0 : Int)) s.stepc)
      SampleMode.minSample = ⟨(0, 0), 0⟩ := by
    rw [searchResult_congr 1 1 s.pat allButZero _ _ hB]
    show searchResult 1 1 allButZero (fun _ => (0 : Int)) SampleMode.minSample = _
    decide
  have hpat1 : (gStep 1 1 (fun _ _ => 0) .minSample true none s).pat
      = Function.update s.pat (0, 0) true :=
    gStep_pat_of_searchResult 1 1 _ _ _ _ s ⟨(0, 0), 0⟩ hsr1
      (by decide) (by decide)
  have hmidA : ∀ p, (gStep 1 1 (fun _ _ => 0) .minSample true none s).pat p = true := by
    intro p
    rw [hpat1, Function.update_apply]
    by_cases hp : p = ((0, 0) : Pos)
    · rw [if_pos hp]
    · rw [if_neg hp, hB p]
      unfold allButZero
      rw [decide_eq_false hp]
      rfl
  have hsr2 : searchResult 1 1
      (gStep 1 1 (fun _ _ => 0) .minSample true none s).pat
      ((fun _ _ => (0 : Int))
        (gStep 1 1 (fun _ _ => 0) .minSample true none s).stepc)
      SampleMode.maxSample = ⟨(0, 0), 0⟩ := by
    rw [searchResult_congr 1 1 _ (fun _ => true) _ _ hmidA]
    show searchResult 1 1 (fun _ => true) (fun _ => (0 : Int))
      SampleMode.maxSample = _
    decide
  have hpat2 : (phase0Pair 1 1 (fun _ _ => 0) s).pat
      = Function.update
          (gStep 1 1 (fun _ _ => 0) .minSample true none s).pat (0, 0) false :=
    gStep_pat_of_searchResult 1 1 _ _ _ _ _ ⟨(0, 0), 0⟩ hsr2
      (by decide) (by decide)
  intro p
  rw [hpat2, Function.update_apply]
  by_cases hp : p = ((0, 0) : Pos)
  · rw [if_pos hp, hp]
    decide
  · rw [if_neg hp, hmidA p]
    unfold allButZero
    rw [decide_eq_false hp]
    rfl

theorem phase0G_allOn (k : Nat) :
    ∀ p, (phase0G 1 1 (fun _ _ => 0) (k + 1)
      ⟨0, fun _ => true, fun _ => none⟩).pat p = allButZero p := by
  induction k with
  | zero =>
      rw [phase0G_succ]
      exact phase0Pair_allOn _ (fun p => rfl)
  | succ n ih =>
      rw [phase0G_succ]
      exact phase0Pair_allButZero _ ih

/-- C5 counterexample: the all-on 16×16 seed has `P = 256` on-pixels, but
after the `P`-pair phase-0 loop (constant-zero energies) the pattern has
255 on-pixels, not 256: the first search of each pair is the void search,
and on an all-on pattern it has no eligible pixel, so the swap removes a
pixel without adding one. -/
theorem phase0_conservation_cex :
    onCount 1 1 (fun _ => true) = 256 ∧
    onCount 1 1 (phase0 1 1 (fun _ _ => 0) 256
      ⟨fun _ => true, fun _ => false, fun _ => none, 0⟩).noise = 255 := by
  constructor
  · decide
  · rw [phase0_noise 1 1 (fun _ _ => 0) 256
      ⟨fun _ => true, fun _ => false, fun _ => none, 0⟩]
    rw [onCount_congr 1 1 _ allButZero (phase0G_allOn 255)]
    decide

theorem exists_off_pixel (tw th : Nat) (pat : Pos → Bool)
    (h : onCount tw th pat < 256 * (tw * th)) :
    ∃ p ∈ domD tw th, eligible SampleMode.minSample (pat p) = true := by
  have hlt : (onSet tw th pat).card < (domD tw th).card := by
    rw [card_domD]
    exact h
  by_contra hno
  push_neg at hno
  have hall : ∀ p ∈ domD tw th, pat p = true := by
    intro p hp
    have := hno p hp
    simpa [eligible] using this
  have heq : onSet tw th pat = domD tw th := by
    apply Finset.Subset.antisymm
    · exact Finset.filter_subset _ _
    · intro p hp
      exact (mem_onSet tw th pat p).mpr ⟨hp, hall p hp⟩
  rw [heq] at hlt
  omega

/-- C5 amended: provided at least one off pixel exists in the seed
(`P < pixelCount`; an all-on seed loses one pixel because the leading
void search of the pair finds nothing eligible), each phase-0 swap pair
turns exactly one void pixel on and one cluster pixel off, so the on-pixel
count is conserved: after the fixed `P`-swap tightening loop the pattern
again has exactly `P` on-pixels. -/
theorem phase0_conservation (tw th P : Nat) (E : Nat → Pos → Int)
    (st : DriverState) (htw : 0 < tw) (hth : 0 < th) (hE : EBounded tw th E)
    (hP : P = onCount tw th st.noise)
    (hlt : onCount tw th st.noise < 256 * (tw * th)) :
    onCount tw th (phase0 tw th E P st).noise = P := by
  have hpair : ∀ s : GState, onCount tw th s.pat < 256 * (tw * th) →
      onCount tw th (phase0Pair tw th E s).pat = onCount tw th s.pat := by
    intro s hcount
    obtain ⟨v, hvD, hve, hvpat, _, _⟩ :=
      gStep_char tw th E .minSample true none s htw hth hE
        (exists_off_pixel tw th s.pat hcount)
    have hvoff : s.pat v = false := by
      have := hve
      simp [eligible] at this
      exact this
    set mid := gStep tw th E .minSample true none s with hmid
    have hvnotin : v ∉ onSet tw th s.pat := by
      intro hmem
      rw [mem_onSet] at hmem
      rw [hvoff] at hmem
      exact absurd hmem.2 (by simp)
    have hmidset : onSet tw th mid.pat = insert v (onSet tw th s.pat) := by
      rw [hvpat]
      exact onSet_update_true tw th s.pat v hvD
    obtain ⟨c, hcD, hce, hcpat, _, _⟩ :=
      gStep_char tw th E .maxSample false none mid htw hth hE
        ⟨v, hvD, by rw [hvpat]; simp [eligible, Function.update_same]⟩
    have hcon : mid.pat c = true := by
      have := hce
      simpa [eligible] using this
    have hcin : c ∈ onSet tw th mid.pat := (mem_onSet tw th mid.pat c).mpr ⟨hcD, hcon⟩
    have hfinset : onSet tw th (phase0Pair tw th E s).pat
        = (onSet tw th mid.pat).erase c := by
      show onSet tw th (gStep tw th E .maxSample false none mid).pat = _
      rw [hcpat]
      exact onSet_update_false tw th mid.pat c
    unfold onCount
    rw [hfinset, Finset.card_erase_of_mem hcin, hmidset,
      Finset.card_insert_of_not_mem hvnotin]
    omega
  have hinv : ∀ k, onCount tw th
      (phase0G tw th E k ⟨st.stepc, st.noise, st.seq⟩).pat
      = onCount tw th st.noise := by
    intro k
    induction k with
    | zero => rfl
    | succ n ih =>
        rw [phase0G_succ, hpair _ (by rw [ih]; exact hlt), ih]
  rw [phase0_noise, hinv P]
  exact hP.symm

/-- Witness for `phase0_conservation`: the 16×16 seed with one on-pixel. -/
theorem phase0_conservation_witness :
    1 = onCount 1 1 (fun p => decide (p = ((3, 0) : Pos))) ∧
    onCount 1 1 (phase0 1 1 (fun _ _ => 0) 1
      ⟨fun p => decide (p = ((3, 0) : Pos)), fun _ => false, fun _ => none, 0⟩).noise
      = 1 := by
  refine ⟨by decide, ?_⟩
  exact phase0_conservation 1 1 1 (fun _ _ => 0)
    ⟨fun p => decide (p = ((3, 0) : Pos)), fun _ => false, fun _ => none, 0⟩
    (by decide) (by decide)
    (fun n x y hx hy =>
      ⟨show -(10 ^ 9 : Int) < 0 by decide, show (0 : Int) < 10 ^ 9 by decide⟩)
    (by decide) (by decide)

/-- C8 counterexample: for padded size 64, logical size 16 and position 40
(no underflow, so the pre-wrap does not fire), the `UPSCALE_SHADER` remap
yields `(40 - 24) % 16 = 0`, whereas the claimed formula
`(p - offset) mod paddedSize` yields `16`: the modulus is the logical
size, not the padded size. -/
theorem remap_modulus_cex :
    upscaleRemapAxis 64 16 40 = 0 ∧
    ((40 : Int) - (((64 - 16) / 2 : Nat) : Int)).tmod 64 = 16 ∧
    ¬ (upscaleRemapAxis 64 16 40
        = ((40 : Int) - (((64 - 16) / 2 : Nat) : Int)).tmod 64) := by
  refine ⟨by decide, by decide, by decide⟩

/-- C8 amended: whenever the logical size differs from the padded size,
both shaders remap a position by
`p' = ((p - offset) mod logicalSize)` with
`offset = (paddedSize - logicalSize) / 2`, the conditional pre-wrap
`if (p < offset) p += logicalSize` keeping the intermediate value
nonnegative before the (truncated) modulo whenever
`paddedSize ≤ 3 * logicalSize`; the identical remap expression is used for
the logical→padded lift (`UPSCALE_SHADER` read) and for the
winning-position write-back (`UPDATE_SHADER`), and the result always lands
inside the logical extent. -/
theorem remap_characterization :
    (∀ big small : Nat, ∀ p : Int,
      upscaleRemapAxis big small p = updateRemapAxis big small p) ∧
    (∀ big small : Nat, ∀ p : Int,
      small ≤ big → big ≤ 3 * small → 0 < small → 0 ≤ p → p < (big : Int) →
      updateRemapAxis big small p
        = (p - (((big - small) / 2 : Nat) : Int)) % (small : Int) ∧
      0 ≤ updateRemapAxis big small p ∧
      updateRemapAxis big small p < (small : Int)) := by
  constructor
  · intro big small p
    rfl
  · intro big small p hsb hb3 hs hp0 hpb
    have hoffle : (big - small) / 2 ≤ small := by omega
    have hsmall0 : (small : Int) ≠ 0 := by
      intro h
      omega
    have hchar : updateRemapAxis big small p
        = (p - (((big - small) / 2 : Nat) : Int)) % (small : Int) := by
      unfold updateRemapAxis
      show ((if p < (((big - small) / 2 : Nat) : Int) then p + (small : Int) else p)
          - (((big - small) / 2 : Nat) : Int)).tmod (small : Int) = _
      by_cases hlt : p < (((big - small) / 2 : Nat) : Int)
      · rw [if_pos hlt]
        have hnn : 0 ≤ p + (small : Int) - (((big - small) / 2 : Nat) : Int) := by
          have : (((big - small) / 2 : Nat) : Int) ≤ (small : Int) := by
            exact_mod_cast hoffle
          omega
        rw [Int.tmod_eq_emod hnn (by omega)]
        have : p + (small : Int) - (((big - small) / 2 : Nat) : Int)
            = (p - (((big - small) / 2 : Nat) : Int)) + (small : Int) := by ring
        rw [this, Int.add_emod_self]
      · rw [if_neg hlt]
        have hnn : 0 ≤ p - (((big - small) / 2 : Nat) : Int) := by omega
        rw [Int.tmod_eq_emod hnn (by omega)]
    refine ⟨hchar, ?_, ?_⟩
    · rw [hchar]
      exact Int.emod_nonneg _ hsmall0
    · rw [hchar]
      exact Int.emod_lt_of_pos _ (by omega)

/-- Witness for `remap_characterization`: padded 64, logical 32,
position 5 (the pre-wrap fires: `5 < 16`, `5 + 32 - 16 = 21`). -/
theorem remap_characterization_witness :
    upscaleRemapAxis 64 32 5 = updateRemapAxis 64 32 5 ∧
    (updateRemapAxis 64 32 5
      = ((5 : Int) - (((64 - 32) / 2 : Nat) : Int)) % (32 : Int) ∧
     0 ≤ updateRemapAxis 64 32 5 ∧
     updateRemapAxis 64 32 5 < (32 : Int)) := by
  exact ⟨remap_characterization.1 64 32 5,
    remap_characterization.2 64 32 5 (by decide) (by decide) (by decide)
      (by decide) (by decide)⟩

/-- The `MinSize` enum constant of `BlueNoise.h`. -/
def MinSize : Nat := 64

/-- Modelled from the spec: the `npot` utility (its source lives in the
Tellusim core library, outside this repository) — "dimensions are rounded
up to the next power of two", i.e. the smallest power of two that is at
least `n` (for `n ≥ 1`), here computed by fuel-bounded halving. -/
def npotGo : Nat → Nat → Nat
  | 0, _ => 1
  | fuel + 1, n => if n ≤ 1 then 1 else 2 * npotGo fuel ((n + 1) / 2)

def npot (n : Nat) : Nat := npotGo n n

theorem npotGo_ge (fuel : Nat) :
    ∀ n, n ≤ fuel → 1 ≤ n → n ≤ npotGo fuel n := by
  induction fuel with
  | zero => intro n h1 h2; omega
  | succ f ih =>
      intro n h1 h2
      show n ≤ if n ≤ 1 then 1 else 2 * npotGo f ((n + 1) / 2)
      split_ifs with hn
      · omega
      · have hrec := ih ((n + 1) / 2) (by omega) (by omega)
        omega

theorem le_npot (n : Nat) (h : 1 ≤ n) : n ≤ npot n :=
  npotGo_ge n n (le_refl n) h

/-- Outcome of the validation prefix of `BlueNoise::dispatch`: either the
size check fails and `Image()` (a null image) is returned before any
texture, kernel image or transform buffer is created, or generation
proceeds at the padded working sizes `max(npot(width), MinSize)` ×
`max(npot(height), MinSize)`. -/
inductive DispatchOutcome
  | nullImage
  | generates (paddedW paddedH : Nat)
deriving DecidableEq

/-- The size validation at the top of `BlueNoise::dispatch`:
`if (width < 1 || height < 1 || layers < 1) { … return Image(); }`,
followed by `npot_width = max(npot(width), MinSize)` (and the same for the
height) before any resource is created. -/
def dispatchCheck (width height layers : Nat) : DispatchOutcome :=
  if width < 1 || height < 1 || layers < 1 then .nullImage
  else .generates (max (npot width) MinSize) (max (npot height) MinSize)

/-- C9 counterexample: a 32×32 single-layer request is smaller than the
minimum working size (`MinSize = 64`) yet is not rejected — `dispatch`
only rejects zero sizes and pads small images up to the minimum instead. -/
theorem min_size_reject_cex :
    32 < MinSize ∧
    dispatchCheck 32 32 1 ≠ DispatchOutcome.nullImage ∧
    dispatchCheck 32 32 1 = DispatchOutcome.generates 64 64 := by
  refine ⟨by decide, by decide, by decide⟩

/-- C9 amended: `dispatch` detects a degenerate configuration — a
zero-width or zero-height image, or zero layers — before any GPU/compute
resource is allocated and surfaces the failure by returning a null image,
and generation never starts in that case; an image merely smaller than the
minimum working size is not rejected: its padded working size is raised to
at least `MinSize` (and at least the requested size) and generation
proceeds. -/
theorem dispatch_validation :
    (∀ w h l : Nat,
      dispatchCheck w h l = DispatchOutcome.nullImage ↔ w = 0 ∨ h = 0 ∨ l = 0) ∧
    (∀ w h l : Nat, 1 ≤ w → 1 ≤ h → 1 ≤ l →
      dispatchCheck w h l
        = DispatchOutcome.generates (max (npot w) MinSize) (max (npot h) MinSize) ∧
      MinSize ≤ max (npot w) MinSize ∧ MinSize ≤ max (npot h) MinSize ∧
      w ≤ max (npot w) MinSize ∧ h ≤ max (npot h) MinSize) := by
  constructor
  · intro w h l
    unfold dispatchCheck
    split_ifs with hc
    · simp only [true_iff]
      simp at hc
      omega
    · constructor
      · intro h'
        exact absurd h' (by simp)
      · intro h'
        simp at hc
        omega
  · intro w h l hw hh hl
    have hnpot : ∀ n : Nat, 1 ≤ n → n ≤ npot n := le_npot
    refine ⟨?_, le_max_right _ _, le_max_right _ _, ?_, ?_⟩
    · unfold dispatchCheck
      rw [if_neg (by simp; omega)]
    · exact le_trans (hnpot w hw) (le_max_left _ _)
    · exact le_trans (hnpot h hh) (le_max_left _ _)

/-- Witness for `dispatch_validation` at a 128×128 single-layer request. -/
theorem dispatch_validation_witness :
    (dispatchCheck 0 128 1 = DispatchOutcome.nullImage ↔ (0 : Nat) = 0 ∨ (128 : Nat) = 0 ∨ (1 : Nat) = 0) ∧
    dispatchCheck 128 128 1
      = DispatchOutcome.generates (max (npot 128) MinSize) (max (npot 128) MinSize) := by
  exact ⟨dispatch_validation.1 0 128 1,
    (dispatch_validation.2 128 128 1 (by decide) (by decide) (by decide)).1⟩

/-- `isigma = 1.0f / (sigma * sigma + 1e-6f)` of the kernel-generation
loop (float literals modelled as exact rationals). -/
def isig (sigma : ℚ) : ℚ := 1 / (sigma * sigma + 1 / 1000000)

/-- One kernel term `k = exp(-d * isigma) + epsilon / (1.0f + d)` with the
`exp` primitive abstracted as `ef` and the squared distance `d` a natural
number (the loop computes it from integer-valued pixel offsets). -/
def kval (sigma eps : ℚ) (ef : ℚ → ℚ) (d : Nat) : ℚ :=
  ef (-(d : ℚ) * isig sigma) + eps / (1 + (d : ℚ))

/-- Modelled from the spec: the kernel term as the claim words it,
`exp(-d / sigma²) + epsilon / (1 + d)` — no `1e-6` guard in the
denominator of the exponent. -/
def specKval (sigma eps : ℚ) (ef : ℚ → ℚ) (d : Nat) : ℚ :=
  ef (-(d : ℚ) / (sigma * sigma)) + eps / (1 + (d : ℚ))

/-- Iteration domain of the kernel-generation double loop:
`y0` over `[0, H/2)` outer, `x0` over `[0, W/2)` inner. -/
def quadIter (W H : Nat) : List (Nat × Nat) :=
  (List.range (H / 2)).flatMap
    (fun y0 => (List.range (W / 2)).map (fun x0 => (x0, y0)))

/-- One iteration of the kernel-generation loop: computes the four
quadrant-mirrored entries from the four squared distances
`d00 = x0²+y0²`, `d10 = (x0+1)²+y0²`, `d01 = x0²+(y0+1)²`,
`d11 = (x0+1)²+(y0+1)²` and stores them at `(x0,y0)`, `(W-1-x0,y0)`,
`(x0,H-1-y0)`, `(W-1-x0,H-1-y0)` respectively. -/
def writeFour (W H : Nat) (sigma eps : ℚ) (ef : ℚ → ℚ)
    (img : Pos → ℚ) (xy : Nat × Nat) : Pos → ℚ :=
  Function.update (Function.update (Function.update (Function.update img
    (xy.1, xy.2) (kval sigma eps ef (xy.1 * xy.1 + xy.2 * xy.2)))
    (W - 1 - xy.1, xy.2)
      (kval sigma eps ef ((xy.1 + 1) * (xy.1 + 1) + xy.2 * xy.2)))
    (xy.1, H - 1 - xy.2)
      (kval sigma eps ef (xy.1 * xy.1 + (xy.2 + 1) * (xy.2 + 1))))
    (W - 1 - xy.1, H - 1 - xy.2)
      (kval sigma eps ef ((xy.1 + 1) * (xy.1 + 1) + (xy.2 + 1) * (xy.2 + 1)))

/-- The spatial kernel image after the generation loop (the image is
created fresh; unwritten texels are irrelevant and modelled as `0`). -/
def kernelRaw (W H : Nat) (sigma eps : ℚ) (ef : ℚ → ℚ) : Pos → ℚ :=
  (quadIter W H).foldl (writeFour W H sigma eps ef) (fun _ => 0)

/-- The accumulated `weight += k00 + k01 + k10 + k11` total of the
generation loop (`float64` accumulation modelled exactly). -/
def kernelSum (W H : Nat) (sigma eps : ℚ) (ef : ℚ → ℚ) : ℚ :=
  ∑ q ∈ Finset.range (H / 2) ×ˢ Finset.range (W / 2),
    (kval sigma eps ef (q.2 * q.2 + q.1 * q.1) +
     kval sigma eps ef (q.2 * q.2 + (q.1 + 1) * (q.1 + 1)) +
     kval sigma eps ef ((q.2 + 1) * (q.2 + 1) + q.1 * q.1) +
     kval sigma eps ef ((q.2 + 1) * (q.2 + 1) + (q.1 + 1) * (q.1 + 1)))

/-- The kernel after the rescale pass
`iweight = npot_width / weight; pixel *= iweight`. -/
def kernelScaled (W H : Nat) (sigma eps : ℚ) (ef : ℚ → ℚ) : Pos → ℚ :=
  fun p => kernelRaw W H sigma eps ef p * ((W : ℚ) / kernelSum W H sigma eps ef)

/-- C7 counterexample: for `sigma = 1`, `epsilon = 0`, with the `exp`
oracle instantiated to the identity, the kernel entry at offset `(1,0)`
(squared distance `d = 1`) is `-(1/(1 + 10⁻⁶)) = -1000000/1000001`, not
the claimed `exp(-d/sigma²) = -1`: the exponent divides by
`sigma² + 1e-6`, not by `sigma²`. -/
theorem kernel_formula_cex :
    kernelRaw 2 2 1 0 (fun q => q) (1, 0) = -(1000000 / 1000001 : ℚ) ∧
    specKval 1 0 (fun q => q) 1 = -1 ∧
    ¬ (kernelRaw 2 2 1 0 (fun q => q) (1, 0) = specKval 1 0 (fun q => q) 1) := by
  have h1 : kernelRaw 2 2 1 0 (fun q => q) (1, 0) = -(1000000 / 1000001 : ℚ) := by
    show writeFour 2 2 1 0 (fun q => q) (fun _ => 0) (0, 0) (1, 0)
      = -(1000000 / 1000001 : ℚ)
    unfold writeFour kval isig
    norm_num [Function.update_apply]
  refine ⟨h1, by unfold specKval; norm_num, ?_⟩
  rw [h1]
  unfold specKval
  norm_num

theorem mem_quadIter (W H x0 y0 : Nat) :
    (x0, y0) ∈ quadIter W H ↔ x0 < W / 2 ∧ y0 < H / 2 := by
  unfold quadIter
  simp [List.mem_flatMap, List.mem_map, List.mem_range, Prod.mk.injEq]
  constructor
  · rintro ⟨a, ha, b, hb, hbx, hay⟩
    subst hbx
    subst hay
    exact ⟨hb, ha⟩
  · rintro ⟨hx, hy⟩
    exact ⟨y0, hy, x0, hx, rfl, rfl⟩

theorem kernelFold_untouched (W H : Nat) (sigma eps : ℚ) (ef : ℚ → ℚ) :
    ∀ (l : List (Nat × Nat)) (img : Pos → ℚ) (p : Pos),
      (∀ e ∈ l, p ≠ (e.1, e.2) ∧ p ≠ (W - 1 - e.1, e.2) ∧
        p ≠ (e.1, H - 1 - e.2) ∧ p ≠ (W - 1 - e.1, H - 1 - e.2)) →
      l.foldl (writeFour W H sigma eps ef) img p = img p := by
  intro l
  induction l with
  | nil => intro img p _; rfl
  | cons e rest ih =>
      intro img p hp
      show rest.foldl (writeFour W H sigma eps ef)
        (writeFour W H sigma eps ef img e) p = img p
      rw [ih _ p (fun e' he' => hp e' (List.mem_cons_of_mem e he'))]
      obtain ⟨h1, h2, h3, h4⟩ := hp e (List.mem_cons_self e rest)
      unfold writeFour
      rw [Function.update_noteq h4, Function.update_noteq h3,
          Function.update_noteq h2, Function.update_noteq h1]

theorem writeFour_values (W H : Nat) (sigma eps : ℚ) (ef : ℚ → ℚ)
    (img : Pos → ℚ) (x0 y0 : Nat)
    (hxx : x0 ≠ W - 1 - x0) (hyy : y0 ≠ H - 1 - y0) :
    writeFour W H sigma eps ef img (x0, y0) (x0, y0)
      = kval sigma eps ef (x0 * x0 + y0 * y0) ∧
    writeFour W H sigma eps ef img (x0, y0) (W - 1 - x0, y0)
      = kval sigma eps ef ((x0 + 1) * (x0 + 1) + y0 * y0) ∧
    writeFour W H sigma eps ef img (x0, y0) (x0, H - 1 - y0)
      = kval sigma eps ef (x0 * x0 + (y0 + 1) * (y0 + 1)) ∧
    writeFour W H sigma eps ef img (x0, y0) (W - 1 - x0, H - 1 - y0)
      = kval sigma eps ef ((x0 + 1) * (x0 + 1) + (y0 + 1) * (y0 + 1)) := by
  unfold writeFour
  have hfst : ∀ b b' : Nat, ((x0, b) : Pos) ≠ (W - 1 - x0, b') := by
    intro b b' h
    rw [Prod.mk.injEq] at h
    exact hxx h.1
  have hfst' : ∀ b b' : Nat, ((W - 1 - x0, b) : Pos) ≠ (x0, b') := by
    intro b b' h
    rw [Prod.mk.injEq] at h
    exact hxx h.1.symm
  have hsnd : ∀ a : Nat, ((a, y0) : Pos) ≠ (a, H - 1 - y0) := by
    intro a h
    rw [Prod.mk.injEq] at h
    exact hyy h.2
  refine ⟨?_, ?_, ?_, ?_⟩
  · rw [Function.update_noteq (hfst y0 (H - 1 - y0)),
        Function.update_noteq (hsnd x0),
        Function.update_noteq (hfst y0 y0),
        Function.update_same]
  · rw [Function.update_noteq (hsnd (W - 1 - x0)),
        Function.update_noteq (hfst' y0 (H - 1 - y0)),
        Function.update_same]
  · rw [Function.update_noteq (hfst (H - 1 - y0) (H - 1 - y0)),
        Function.update_same]
  · rw [Function.update_same]

theorem target_not_written (mW mH x0 y0 x0' y0' a b : Nat)
    (hx : x0 < mW) (hy : y0 < mH) (hx' : x0' < mW) (hy' : y0' < mH)
    (hne : ((x0', y0') : Nat × Nat) ≠ (x0, y0))
    (ha : a = x0 ∨ a = 2 * mW - 1 - x0) (hb : b = y0 ∨ b = 2 * mH - 1 - y0) :
    ((a, b) : Pos) ≠ (x0', y0') ∧
    ((a, b) : Pos) ≠ (2 * mW - 1 - x0', y0') ∧
    ((a, b) : Pos) ≠ (x0', 2 * mH - 1 - y0') ∧
    ((a, b) : Pos) ≠ (2 * mW - 1 - x0', 2 * mH - 1 - y0') := by
  refine ⟨?_, ?_, ?_, ?_⟩ <;>
    (intro heq
     rw [Prod.mk.injEq] at heq
     obtain ⟨h1, h2⟩ := heq
     apply hne
     rw [Prod.mk.injEq]
     constructor
     · rcases ha with h | h <;> omega
     · rcases hb with h | h <;> omega)

theorem kernelFold_write (mW mH : Nat) (sigma eps : ℚ) (ef : ℚ → ℚ) :
    ∀ (l : List (Nat × Nat)) (img : Pos → ℚ) (x0 y0 : Nat),
      (∀ e ∈ l, e.1 < mW ∧ e.2 < mH) → (x0, y0) ∈ l →
      (l.foldl (writeFour (2 * mW) (2 * mH) sigma eps ef) img) (x0, y0)
        = kval sigma eps ef (x0 * x0 + y0 * y0) ∧
      (l.foldl (writeFour (2 * mW) (2 * mH) sigma eps ef) img)
          (2 * mW - 1 - x0, y0)
        = kval sigma eps ef ((x0 + 1) * (x0 + 1) + y0 * y0) ∧
      (l.foldl (writeFour (2 * mW) (2 * mH) sigma eps ef) img)
          (x0, 2 * mH - 1 - y0)
        = kval sigma eps ef (x0 * x0 + (y0 + 1) * (y0 + 1)) ∧
      (l.foldl (writeFour (2 * mW) (2 * mH) sigma eps ef) img)
          (2 * mW - 1 - x0, 2 * mH - 1 - y0)
        = kval sigma eps ef ((x0 + 1) * (x0 + 1) + (y0 + 1) * (y0 + 1)) := by
  intro l
  induction l with
  | nil => intro img x0 y0 _ hmem; cases hmem
  | cons e rest ih =>
      intro img x0 y0 hbounds hmem
      by_cases hin : (x0, y0) ∈ rest
      · exact ih _ x0 y0 (fun e' he' => hbounds e' (List.mem_cons_of_mem e he')) hin
      · have he : e = (x0, y0) := by
          rcases List.mem_cons.mp hmem with h | h
          · exact h.symm
          · exact absurd h hin
        subst he
        obtain ⟨hx, hy⟩ := hbounds (x0, y0) (List.mem_cons_self _ _)
        have hxx : x0 ≠ 2 * mW - 1 - x0 := by omega
        have hyy : y0 ≠ 2 * mH - 1 - y0 := by omega
        have hW1 : 2 * mW - 1 - x0 = (2 * mW) - 1 - x0 := rfl
        have hrest : ∀ (a b : Nat),
            (a = x0 ∨ a = 2 * mW - 1 - x0) → (b = y0 ∨ b = 2 * mH - 1 - y0) →
            rest.foldl (writeFour (2 * mW) (2 * mH) sigma eps ef)
              (writeFour (2 * mW) (2 * mH) sigma eps ef img (x0, y0)) (a, b)
            = writeFour (2 * mW) (2 * mH) sigma eps ef img (x0, y0) (a, b) := by
          intro a b ha hb
          apply kernelFold_untouched
          intro e' he'
          obtain ⟨hx', hy'⟩ := hbounds e' (List.mem_cons_of_mem _ he')
          have hne : ((e'.1, e'.2) : Nat × Nat) ≠ (x0, y0) := by
            intro hcontra
            apply hin
            rw [show e' = (e'.1, e'.2) from rfl, hcontra] at he'
            exact he'
          exact target_not_written mW mH x0 y0 e'.1 e'.2 a b hx hy hx' hy'
            hne ha hb
        obtain ⟨w1, w2, w3, w4⟩ :=
          writeFour_values (2 * mW) (2 * mH) sigma eps ef img x0 y0 hxx hyy
        refine ⟨?_, ?_, ?_, ?_⟩
        · show rest.foldl _ (writeFour (2 * mW) (2 * mH) sigma eps ef img (x0, y0))
            (x0, y0) = _
          rw [hrest x0 y0 (Or.inl rfl) (Or.inl rfl), w1]
        · show rest.foldl _ (writeFour (2 * mW) (2 * mH) sigma eps ef img (x0, y0))
            (2 * mW - 1 - x0, y0) = _
          rw [hrest _ y0 (Or.inr rfl) (Or.inl rfl), w2]
        · show rest.foldl _ (writeFour (2 * mW) (2 * mH) sigma eps ef img (x0, y0))
            (x0, 2 * mH - 1 - y0) = _
          rw [hrest x0 _ (Or.inl rfl) (Or.inr rfl), w3]
        · show rest.foldl _ (writeFour (2 * mW) (2 * mH) sigma eps ef img (x0, y0))
            (2 * mW - 1 - x0, 2 * mH - 1 - y0) = _
          rw [hrest _ _ (Or.inr rfl) (Or.inr rfl), w4]

theorem kernelRaw_entries (mW mH : Nat) (sigma eps : ℚ) (ef : ℚ → ℚ)
    (x0 y0 : Nat) (hx : x0 < mW) (hy : y0 < mH) :
    kernelRaw (2 * mW) (2 * mH) sigma eps ef (x0, y0)
      = kval sigma eps ef (x0 * x0 + y0 * y0) ∧
    kernelRaw (2 * mW) (2 * mH) sigma eps ef (2 * mW - 1 - x0, y0)
      = kval sigma eps ef ((x0 + 1) * (x0 + 1) + y0 * y0) ∧
    kernelRaw (2 * mW) (2 * mH) sigma eps ef (x0, 2 * mH - 1 - y0)
      = kval sigma eps ef (x0 * x0 + (y0 + 1) * (y0 + 1)) ∧
    kernelRaw (2 * mW) (2 * mH) sigma eps ef (2 * mW - 1 - x0, 2 * mH - 1 - y0)
      = kval sigma eps ef ((x0 + 1) * (x0 + 1) + (y0 + 1) * (y0 + 1)) := by
  apply kernelFold_write mW mH sigma eps ef (quadIter (2 * mW) (2 * mH)) _ x0 y0
  · intro e he
    have he2 : (e.1, e.2) ∈ quadIter (2 * mW) (2 * mH) := by
      rw [show (e.1, e.2) = e from rfl]
      exact he
    rw [mem_quadIter] at he2
    constructor <;> omega
  · rw [mem_quadIter]
    constructor <;> omega

theorem sum_range_even_split (m : Nat) (f : Nat → ℚ) :
    ∑ x ∈ Finset.range (2 * m), f x
      = ∑ x ∈ Finset.range m, (f x + f (2 * m - 1 - x)) := by
  have hsplit : (∑ x ∈ Finset.Ico 0 m, f x) + ∑ x ∈ Finset.Ico m (2 * m), f x
      = ∑ x ∈ Finset.Ico 0 (2 * m), f x :=
    Finset.sum_Ico_consecutive f (Nat.zero_le m) (by omega)
  have h2 : ∑ x ∈ Finset.Ico m (2 * m), f x
      = ∑ i ∈ Finset.range (2 * m - m), f (m + i) :=
    Finset.sum_Ico_eq_sum_range f m (2 * m)
  have hmm : 2 * m - m = m := by omega
  rw [hmm] at h2
  have h3 : ∑ i ∈ Finset.range m, f (m + (m - 1 - i))
      = ∑ i ∈ Finset.range m, f (m + i) :=
    Finset.sum_range_reflect (fun i => f (m + i)) m
  have h4 : ∑ i ∈ Finset.range m, f (m + (m - 1 - i))
      = ∑ i ∈ Finset.range m, f (2 * m - 1 - i) :=
    Finset.sum_congr rfl (fun i hi => by
      rw [Finset.mem_range] at hi
      congr 1
      omega)
  calc ∑ x ∈ Finset.range (2 * m), f x
      = ∑ x ∈ Finset.Ico 0 (2 * m), f x := by rw [Finset.range_eq_Ico]
    _ = (∑ x ∈ Finset.Ico 0 m, f x) + ∑ x ∈ Finset.Ico m (2 * m), f x :=
        hsplit.symm
    _ = (∑ x ∈ Finset.range m, f x) + ∑ x ∈ Finset.range m, f (2 * m - 1 - x) := by
        rw [← Finset.range_eq_Ico, h2, ← h3, h4]
    _ = ∑ x ∈ Finset.range m, (f x + f (2 * m - 1 - x)) :=
        (Finset.sum_add_distrib).symm

theorem kernelRaw_total (mW mH : Nat) (sigma eps : ℚ) (ef : ℚ → ℚ) :
    ∑ p ∈ Finset.range (2 * mW) ×ˢ Finset.range (2 * mH),
      kernelRaw (2 * mW) (2 * mH) sigma eps ef p
      = kernelSum (2 * mW) (2 * mH) sigma eps ef := by
  have hK : kernelSum (2 * mW) (2 * mH) sigma eps ef
      = ∑ x0 ∈ Finset.range mW, ∑ y0 ∈ Finset.range mH,
          (kval sigma eps ef (x0 * x0 + y0 * y0) +
           kval sigma eps ef (x0 * x0 + (y0 + 1) * (y0 + 1)) +
           kval sigma eps ef ((x0 + 1) * (x0 + 1) + y0 * y0) +
           kval sigma eps ef ((x0 + 1) * (x0 + 1) + (y0 + 1) * (y0 + 1))) := by
    unfold kernelSum
    rw [show 2 * mH / 2 = mH from by omega, show 2 * mW / 2 = mW from by omega]
    rw [Finset.sum_product]
    exact Finset.sum_comm
  rw [Finset.sum_product, hK]
  calc ∑ x ∈ Finset.range (2 * mW), ∑ y ∈ Finset.range (2 * mH),
        kernelRaw (2 * mW) (2 * mH) sigma eps ef (x, y)
      = ∑ x ∈ Finset.range (2 * mW), ∑ y0 ∈ Finset.range mH,
          (kernelRaw (2 * mW) (2 * mH) sigma eps ef (x, y0) +
           kernelRaw (2 * mW) (2 * mH) sigma eps ef (x, 2 * mH - 1 - y0)) :=
        Finset.sum_congr rfl (fun x _ =>
          sum_range_even_split mH
            (fun y => kernelRaw (2 * mW) (2 * mH) sigma eps ef (x, y)))
    _ = ∑ x0 ∈ Finset.range mW,
          ((∑ y0 ∈ Finset.range mH,
             (kernelRaw (2 * mW) (2 * mH) sigma eps ef (x0, y0) +
              kernelRaw (2 * mW) (2 * mH) sigma eps ef (x0, 2 * mH - 1 - y0))) +
           ∑ y0 ∈ Finset.range mH,
             (kernelRaw (2 * mW) (2 * mH) sigma eps ef (2 * mW - 1 - x0, y0) +
              kernelRaw (2 * mW) (2 * mH) sigma eps ef
                (2 * mW - 1 - x0, 2 * mH - 1 - y0))) :=
        sum_range_even_split mW
          (fun x => ∑ y0 ∈ Finset.range mH,
            (kernelRaw (2 * mW) (2 * mH) sigma eps ef (x, y0) +
             kernelRaw (2 * mW) (2 * mH) sigma eps ef (x, 2 * mH - 1 - y0)))
    _ = ∑ x0 ∈ Finset.range mW, ∑ y0 ∈ Finset.range mH,
          ((kernelRaw (2 * mW) (2 * mH) sigma eps ef (x0, y0) +
            kernelRaw (2 * mW) (2 * mH) sigma eps ef (x0, 2 * mH - 1 - y0)) +
           (kernelRaw (2 * mW) (2 * mH) sigma eps ef (2 * mW - 1 - x0, y0) +
            kernelRaw (2 * mW) (2 * mH) sigma eps ef
              (2 * mW - 1 - x0, 2 * mH - 1 - y0))) :=
        Finset.sum_congr rfl (fun x0 _ => (Finset.sum_add_distrib).symm)
    _ = ∑ x0 ∈ Finset.range mW, ∑ y0 ∈ Finset.range mH,
          (kval sigma eps ef (x0 * x0 + y0 * y0) +
           kval sigma eps ef (x0 * x0 + (y0 + 1) * (y0 + 1)) +
           kval sigma eps ef ((x0 + 1) * (x0 + 1) + y0 * y0) +
           kval sigma eps ef ((x0 + 1) * (x0 + 1) + (y0 + 1) * (y0 + 1))) := by
        apply Finset.sum_congr rfl
        intro x0 hx0
        apply Finset.sum_congr rfl
        intro y0 hy0
        rw [Finset.mem_range] at hx0 hy0
        obtain ⟨g1, g2, g3, g4⟩ :=
          kernelRaw_entries mW mH sigma eps ef x0 y0 hx0 hy0
        rw [g1, g2, g3, g4]
        ring

/-- C7: For even dimensions `W = 2·mW`, `H = 2·mH`, each loop iteration
`(x0, y0)` with `x0 < mW`, `y0 < mH` writes the four mirrored kernel
entries with the four squared distances `x0²+y0²`, `(x0+1)²+y0²`,
`x0²+(y0+1)²`, `(x0+1)²+(y0+1)²`, where an entry is
`k(d) = exp(-d·isigma) + epsilon/(1+d)` and `isigma = 1/(sigma²+1e-6)`
(not the claimed `exp(-d/sigma²)`); after the `npot_width/weight` rescale
the entries sum to `npot_width = W`. -/
theorem kernel_entries_and_normalization (mW mH : Nat) (sigma eps : ℚ)
    (ef : ℚ → ℚ) (hsum : kernelSum (2 * mW) (2 * mH) sigma eps ef ≠ 0) :
    (∀ x0 y0 : Nat, x0 < mW → y0 < mH →
      kernelRaw (2 * mW) (2 * mH) sigma eps ef (x0, y0)
        = kval sigma eps ef (x0 * x0 + y0 * y0) ∧
      kernelRaw (2 * mW) (2 * mH) sigma eps ef (2 * mW - 1 - x0, y0)
        = kval sigma eps ef ((x0 + 1) * (x0 + 1) + y0 * y0) ∧
      kernelRaw (2 * mW) (2 * mH) sigma eps ef (x0, 2 * mH - 1 - y0)
        = kval sigma eps ef (x0 * x0 + (y0 + 1) * (y0 + 1)) ∧
      kernelRaw (2 * mW) (2 * mH) sigma eps ef (2 * mW - 1 - x0, 2 * mH - 1 - y0)
        = kval sigma eps ef ((x0 + 1) * (x0 + 1) + (y0 + 1) * (y0 + 1))) ∧
    ∑ p ∈ Finset.range (2 * mW) ×ˢ Finset.range (2 * mH),
      kernelScaled (2 * mW) (2 * mH) sigma eps ef p = ((2 * mW : Nat) : ℚ) := by
  constructor
  · intro x0 y0 hx hy
    exact kernelRaw_entries mW mH sigma eps ef x0 y0 hx hy
  · unfold kernelScaled
    rw [← Finset.sum_mul, kernelRaw_total]
    rw [mul_comm, div_mul_cancel₀ _ hsum]

/-- Witness for the C7 theorem at `mW = mH = 1`, `sigma = 1`,
`epsilon = 0`, `exp` oracle the identity: the accumulated weight is the
nonzero `-4000000/1000001`, and the rescaled 2×2 kernel sums to `2`. -/
theorem kernel_entries_and_normalization_witness :
    kernelSum (2 * 1) (2 * 1) 1 0 (fun q => q) ≠ 0 ∧
    ∑ p ∈ Finset.range (2 * 1) ×ˢ Finset.range (2 * 1),
      kernelScaled (2 * 1) (2 * 1) 1 0 (fun q => q) p = ((2 * 1 : Nat) : ℚ) :=
  have hsum : kernelSum (2 * 1) (2 * 1) 1 0 (fun q => q) ≠ 0 := by
    norm_num [kernelSum, kval, isig, Finset.sum_product]
  ⟨hsum, (kernel_entries_and_normalization 1 1 1 0 (fun q => q) hsum).2⟩

end BlueNoise
